import Mathlib

/-!
# Verification of the PFS metadata and commit engine (pachyderm pfs server driver)

This file gives a shallow embedding of `src/server/pfs/server/driver.go`:
the etcd-backed state (repos, repo refcounts, commits, branches, openCommits,
scratch space) is modelled as a record of association lists, and each driver
operation is translated into a Lean function over that state.  An STM closure
that returns an error leaves the store untouched, so state-transition
functions return `Except PfsError PfsState` and an `error` result models an
aborted (hence side-effect free) transaction; operations that perform several
separate etcd calls (e.g. `finishCommit`, `deleteCommit`) are modelled as the
sequential composition of those calls.

External collaborators that the driver uses but that are not part of the
sources (the typed-collection adapter, the hashtree package, the
content-addressed object store, and the auth service) are modelled from the
specification's description of their interfaces; each such definition carries
a doc comment saying so.  Auth is modelled as inactive (permit-all), which the
spec mandates as the non-auth behaviour; the object store is content
addressed, so an object reference is identified with the content it denotes.
-/

deriving instance DecidableEq for Except

namespace Pfs

/-- Association list lookup (etcd point `Get`). -/
def alGet {κ β : Type} [DecidableEq κ] : List (κ × β) → κ → Option β
  | [], _ => none
  | p :: rest, k => if p.1 = k then some p.2 else alGet rest k

/-- Association list insert-or-replace (etcd `Put`). -/
def alPut {κ β : Type} [DecidableEq κ] (l : List (κ × β)) (k : κ) (v : β) :
    List (κ × β) :=
  match l with
  | [] => [(k, v)]
  | p :: rest => if p.1 = k then (k, v) :: rest else p :: alPut rest k v

/-- Association list delete (etcd `Delete` of a single key). -/
def alDel {κ β : Type} [DecidableEq κ] (l : List (κ × β)) (k : κ) :
    List (κ × β) :=
  l.filter (fun p => decide (p.1 ≠ k))

/-- A commit handle: `(RepoName, ID)`, mirroring `pfs.Commit`. -/
structure Commit where
  repo : String
  id : String
deriving Repr, DecidableEq

/-- A file node of the (external) hashtree: the object-hash list and the
subtree size.  Modelled from the spec: the hashtree is an opaque merkle tree
whose file nodes carry an object list and a size (spec sections 1, 4.5). -/
structure FileNode where
  objects : List String
  size : Int
deriving Repr, DecidableEq

/-- A finished hashtree, modelled from the spec as a finite map from file
paths to file nodes; directories are implicit (a path is a directory when
some file lives strictly below it).  Open trees share the representation. -/
abbrev HashTree := List (String × FileNode)

/-- Mirrors `pfs.CommitInfo` as used by the driver: parent pointer, start /
finish stamps, provenance, tree reference and size.  Timestamps are modelled
as natural numbers taken from a logical clock in the state; the tree
reference is identified with the (content-addressed) tree it denotes, the
blob store being content addressed. -/
structure CommitInfo where
  commit : Commit
  parentCommit : Option Commit
  started : Nat
  finished : Option Nat
  provenance : List Commit
  tree : Option HashTree
  sizeBytes : Int
deriving Repr, DecidableEq

/-- Mirrors `pfs.RepoInfo` (provenance entries are kept as repo names). -/
structure RepoInfo where
  repo : String
  created : Nat
  provenance : List String
  description : String
  sizeBytes : Int
deriving Repr, DecidableEq

/-- Mirrors `pfs.PutFileRecord`: one staged append. -/
structure PutFileRecord where
  sizeBytes : Int
  objectHash : String
  overwriteIndex : Option Int
deriving Repr, DecidableEq

/-- Mirrors `pfs.PutFileRecords`: a batch of records plus the `Split` flag. -/
structure PutFileRecords where
  split : Bool
  records : List PutFileRecord
deriving Repr, DecidableEq

/-- A scratch value: either the tombstone marker (`"delete"`) or a serialised
`PutFileRecords` blob. -/
inductive ScratchVal where
  | tombstone
  | recs (r : PutFileRecords)
deriving Repr, DecidableEq

/-- One scratch key-value pair.  The etcd key `scratch/<repo>/<commit>/<path>/<uuid>`
is kept in its parsed form (the driver recovers exactly these components in
`filePathFromEtcdPath`). -/
structure ScratchKV where
  repo : String
  commitID : String
  filePath : String
  uuid : String
  val : ScratchVal
deriving Repr, DecidableEq

/-- Driver errors.  `panicNilPointer` models a Go runtime nil-pointer
dereference (a fault, not an ordinary returned error); `pathNotFound` is the
hashtree's `PathNotFound` code. -/
inductive PfsError where
  | notFound (key : String)
  | commitNotFound (c : Commit)
  | msg (s : String)
  | pathNotFound
  | panicNilPointer
deriving Repr, DecidableEq

/-- The etcd-backed state of the driver: the five collections plus the
scratch space (kept in mod-revision order: later writes appear later in the
list) and a logical clock used for `now()` timestamps. -/
structure PfsState where
  repos : List (String × RepoInfo)
  repoRefCounts : List (String × Int)
  commits : List ((String × String) × CommitInfo)
  branches : List ((String × String) × Commit)
  openCommits : List String
  scratch : List ScratchKV
  clock : Nat
deriving Repr, DecidableEq

/-- `branches(repo).Get(name)`. -/
def branchesGet (st : PfsState) (repo name : String) : Option Commit :=
  alGet st.branches (repo, name)

/-- `commits(repo).Get(id)`. -/
def commitsGet (st : PfsState) (repo id : String) : Option CommitInfo :=
  alGet st.commits (repo, id)

/-! ## parseCommitID (driver.go, `parseCommitID`) and its helpers -/

/-- Go `strconv.Atoi`: optional sign, then one or more decimal digits, with
an `int64` range check (out-of-range input is an error). -/
def goAtoi (s : String) : Option Int :=
  let cs := s.toList
  let signed : Int × List Char :=
    match cs with
    | '+' :: r => (1, r)
    | '-' :: r => (-1, r)
    | r => (1, r)
  let sign := signed.1
  let rest := signed.2
  if rest.isEmpty then none
  else if rest.all Char.isDigit then
    let v : Int := sign * (rest.foldl (fun a c => a * 10 + (c.toNat - 48)) 0 : Nat)
    if -(2 ^ 63) ≤ v ∧ v ≤ 2 ^ 63 - 1 then some v else none
  else none

/-- The scan loop of `parseCommitID`: starting right after the separator,
return `false` (the Go code's early `return commitID, 0`) as soon as a
character differs from the separator. -/
def sepRunOnly (sep : Char) : List Char → Bool
  | [] => true
  | c :: r => if c ≠ sep then false else sepRunOnly sep r

/-- Translation of `parseCommitID`: splits an ID such as `master^2` or
`master~~` into the base token and the ancestry depth. -/
def parseCommitID (commitID : String) : String × Int :=
  let cs := commitID.toList
  match cs.findIdx? (fun c => c = '^' || c = '~') with
  | none => (commitID, 0)
  | some sepIndex =>
    let sep := cs.getD sepIndex ' '
    let strAfterSep := String.mk (cs.drop (sepIndex + 1))
    match goAtoi strAfterSep with
    | some intAfterSep => (String.mk (cs.take sepIndex), intAfterSep)
    | none =>
      if sepRunOnly sep (cs.drop (sepIndex + 1)) then
        (String.mk (cs.take sepIndex), (cs.length : Int) - (sepIndex : Int))
      else
        (commitID, 0)

/-- The ancestry-resolution rule in the words of the specification: N is the
integer after the single separator if one parses, else the number of repeated
identical separators, else 0 (in which case the whole reference is kept). -/
def ancestrySpec (commitID : String) : String × Int :=
  let cs := commitID.toList
  match cs.findIdx? (fun c => c = '^' || c = '~') with
  | none => (commitID, 0)
  | some i =>
    let sep := cs.getD i ' '
    let rest := cs.drop (i + 1)
    match goAtoi (String.mk rest) with
    | some n => (String.mk (cs.take i), n)
    | none =>
      if rest.all (fun c => c = sep) then
        (String.mk (cs.take i), ((rest.length + 1 : Nat) : Int))
      else
        (commitID, 0)

/-! ## inspectCommit (driver.go, `inspectCommit`) -/

/-- The parent-walk loop of `inspectCommit` (`for i := 0; i <= ancestryLength`):
fetch the commit record of the current pointer, and follow `ParentCommit`
the given number of further times.  A nil pointer or a missing record yields
`ErrCommitNotFound` (carrying the original reference resp. the failing
pointer, as in the source). -/
def walkParents (st : PfsState) (repo : String) (orig : Commit) :
    Option Commit → Nat → Except PfsError CommitInfo
  | none, _ => .error (.commitNotFound orig)
  | some c, n =>
    match commitsGet st repo c.id with
    | none => .error (.commitNotFound c)
    | some ci =>
      match n with
      | 0 => .ok ci
      | Nat.succ m => walkParents st repo orig ci.parentCommit m

/-- Translation of `inspectCommit`: parse the ancestry suffix, rewrite the
base token to the branch head when it names a branch, then walk parent links.
A negative parsed depth makes the Go loop run zero times, after which
`commitInfo.Commit` dereferences a nil `commitInfo` — modelled as
`panicNilPointer`. -/
def inspectCommit (st : PfsState) (commit : Commit) : Except PfsError CommitInfo :=
  let p := parseCommitID commit.id
  let commitID :=
    match branchesGet st commit.repo p.1 with
    | some head => head.id
    | none => p.1
  if p.2 < 0 then .error .panicNilPointer
  else walkParents st commit.repo commit (some ⟨commit.repo, commitID⟩) p.2.toNat

/-! ## The hashtree model

The hashtree package is repository code that is not among the given sources.
Modelled from the spec: an opaque content-addressed directory tree with
`Open/Finish/Put/Delete/Get/Walk/Diff/Glob/List` methods and an `FSSize`
accessor (spec section 1); `PutFile` appends an object list to a file,
`PutFileOverwrite` truncates the object list at the overwrite index first,
`DeleteFile` removes a path (code `PathNotFound` when absent), a file/
directory clash is a file-type conflict error (spec section 7), and `List`
returns a directory's immediate children sorted by name. -/

/-- Split a character list at `'/'` (the path-component structure used by
the hashtree; structural recursion so that concrete evaluation reduces). -/
def splitSlash : List Char → List (List Char)
  | [] => [[]]
  | c :: rest =>
    match splitSlash rest with
    | [] => [[c]]
    | h :: t => if c = '/' then [] :: h :: t else (c :: h) :: t

/-- The `/`-separated components of a path. -/
def pathComponents (s : String) : List String :=
  (splitSlash s.toList).map String.mk

/-- `anc` is a strict (directory) ancestor of path `p`. -/
def strictUnder (anc p : String) : Bool :=
  if anc = "" then !(p = "") else
    let a := pathComponents anc
    let b := pathComponents p
    decide (a.length < b.length) && decide (b.take a.length = a)

/-- Some entry lives strictly below `p`, i.e. `p` is a directory. -/
def isDirAt (t : HashTree) (p : String) : Bool :=
  t.any (fun e => strictUnder p e.1)

/-- Some strict ancestor of `p` is a file. -/
def hasAncFile (t : HashTree) (p : String) : Bool :=
  t.any (fun e => strictUnder e.1 p)

/-- hashtree `PutFile`: append the objects (and add the size) to the file at
`p`, creating it if absent; error on a file/directory clash. -/
def treePutFile (t : HashTree) (p : String) (objs : List String) (size : Int) :
    Except PfsError HashTree :=
  if isDirAt t p || hasAncFile t p then .error (.msg "file type conflict")
  else
    match alGet t p with
    | some fn => .ok (alPut t p ⟨fn.objects ++ objs, fn.size + size⟩)
    | none => .ok (t ++ [(p, ⟨objs, size⟩)])

/-- hashtree `PutFileOverwrite`: truncate the object list at the overwrite
index, then append; the size moves by the caller-computed delta. -/
def treePutFileOverwrite (t : HashTree) (p : String) (objs : List String)
    (index : Int) (delta : Int) : Except PfsError HashTree :=
  if isDirAt t p || hasAncFile t p then .error (.msg "file type conflict")
  else
    match alGet t p with
    | some fn => .ok (alPut t p ⟨fn.objects.take index.toNat ++ objs, fn.size + delta⟩)
    | none => .ok (t ++ [(p, ⟨objs, delta⟩)])

/-- hashtree `DeleteFile`: remove the node at `p` (file, or directory with
its whole subtree); `pathNotFound` when nothing is there. -/
def treeDeleteFile (t : HashTree) (p : String) : Except PfsError HashTree :=
  if (alGet t p).isSome || isDirAt t p then
    .ok (t.filter fun e => decide (e.1 ≠ p) && !(strictUnder p e.1))
  else .error .pathNotFound

/-- hashtree `FSSize`: total size of the files in the tree. -/
def fsSize (t : HashTree) : Int :=
  (t.map (fun e => e.2.size)).sum

/-- Modelled from the spec: `sizeChange(tree, parentTree)` is the sum of
`SubtreeSize` over the new file nodes discovered by `tree.Diff(parentTree)`;
a file node is new when the parent tree does not hold that same node at that
path (spec section 4.4). -/
def sizeChange (tree parentTree : HashTree) : Int :=
  ((tree.filter fun e => decide (alGet parentTree e.1 ≠ some e.2)).map
    (fun e => e.2.size)).sum

/-- Translation of `getTreeForCommit`: a nil or empty reference denotes the
empty tree; otherwise resolve the reference, fetch the record (the source
re-reads it under the resolved ID), refuse open commits, and return the
referenced tree (`nil` tree reference means the empty tree).  The LRU cache
of the source only memoises this lookup and is not represented. -/
def getTreeForCommit (st : PfsState) (c : Option Commit) :
    Except PfsError HashTree :=
  match c with
  | none => .ok []
  | some c =>
    if c.id = "" then .ok []
    else
      (inspectCommit st c).bind fun ci0 =>
      match commitsGet st c.repo ci0.commit.id with
      | none => .error (.notFound ci0.commit.id)
      | some ci =>
        if ci.finished = none then .error (.msg "cannot read from an open commit")
        else .ok (ci.tree.getD [])

/-! ## Counter collection (`repoRefCounts`)

The typed-collection adapter is repository code that is not among the given
sources.  Modelled from the spec (section 4.1): integer counters with
`Create`/`Increment(By)`/`Decrement(By)`, and errors surfacing as typed
`ErrNotFound` when the counter is absent. -/

/-- `Increment`: error when the counter does not exist. -/
def rcIncrement (rc : List (String × Int)) (k : String) :
    Except PfsError (List (String × Int)) :=
  match alGet rc k with
  | none => .error (.notFound k)
  | some v => .ok (alPut rc k (v + 1))

def rcIncrementAll (rc : List (String × Int)) (ks : List String) :
    Except PfsError (List (String × Int)) :=
  ks.foldlM rcIncrement rc

/-- `IncrementBy`: error when the counter does not exist. -/
def rcIncrementBy (rc : List (String × Int)) (k : String) (n : Int) :
    Except PfsError (List (String × Int)) :=
  match alGet rc k with
  | none => .error (.notFound k)
  | some v => .ok (alPut rc k (v + n))

def rcIncrementByAll (rc : List (String × Int)) (ks : List String) (n : Int) :
    Except PfsError (List (String × Int)) :=
  ks.foldlM (fun acc k => rcIncrementBy acc k n) rc

/-- `DecrementBy`: error when the counter does not exist. -/
def rcDecrementBy (rc : List (String × Int)) (k : String) (n : Int) :
    Except PfsError (List (String × Int)) :=
  match alGet rc k with
  | none => .error (.notFound k)
  | some v => .ok (alPut rc k (v - n))

def rcDecrementByAll (rc : List (String × Int)) (ks : List String) (n : Int) :
    Except PfsError (List (String × Int)) :=
  ks.foldlM (fun acc k => rcDecrementBy acc k n) rc

/-- `Decrement` with the caller's `IsErrNotFound` skip (deleteRepo ignores a
missing counter). -/
def rcDecrementNF (rc : List (String × Int)) (k : String) :
    List (String × Int) :=
  match alGet rc k with
  | none => rc
  | some v => alPut rc k (v - 1)

def rcDecAll (rc : List (String × Int)) (ks : List String) :
    List (String × Int) :=
  ks.foldl rcDecrementNF rc

/-- `Create`: error when the key already exists. -/
def rcCreate (rc : List (String × Int)) (k : String) (v : Int) :
    Except PfsError (List (String × Int)) :=
  match alGet rc k with
  | some _ => .error (.msg "already exists")
  | none => .ok (rc ++ [(k, v)])

/-! ## Repo manager (driver.go: `createRepo`, `updateRepo`, `listRepo`,
`deleteRepo`).  Auth calls are modelled as inactive (permit-all), per the
spec's treatment of the auth collaborator. -/

/-- `ValidateRepoName`: the name must match `[a-zA-Z0-9_-]+` in full. -/
def validRepoName (name : String) : Bool :=
  name.toList.all (fun c => c.isAlphanum || c = '_' || c = '-') && !name.isEmpty

/-- Insert a name if not already present (Go builds a `map[string]bool`;
iteration order of that map is not deterministic, so this model fixes the
insertion order — all claims depend only on membership). -/
def addName (l : List String) (n : String) : List String :=
  if l.contains n then l else l ++ [n]

def addNames (l : List String) (ns : List String) : List String :=
  ns.foldl addName l

def dedupKeepFirst (l : List String) : List String :=
  l.foldl addName []

/-- The provenance-closure computation of `createRepo`: every direct
provenance repo (which must exist) plus everything in its stored provenance. -/
def fullProvOf (st : PfsState) (provenance : List String) :
    Except PfsError (List String) :=
  provenance.foldlM
    (fun acc p =>
      match alGet st.repos p with
      | none => .error (.notFound p)
      | some pi => .ok (addNames (addName acc p) pi.provenance))
    []

/-- Translation of `listRepo` restricted to the provenance filter (the auth
decoration is permit-all): every requested provenance repo must exist, and a
repo is kept iff its provenance contains all requested repos. -/
def listRepoWithProv (st : PfsState) (prov : List String) :
    Except PfsError (List RepoInfo) :=
  (prov.foldlM
    (fun _ p =>
      match alGet st.repos p with
      | none => Except.error (PfsError.notFound p)
      | some _ => Except.ok ())
    ()).bind fun _ =>
  .ok ((st.repos.filter
        (fun e : String × RepoInfo =>
          prov.all (fun q => e.2.provenance.contains q))).map
        (fun e : String × RepoInfo => e.2))

/-- Translation of `updateRepo`: adjust refcounts of added/removed direct
provenance by `myRefCount + 1`, patch all downstream repos' provenance lists,
and store the repo's provenance as the list given by the caller. -/
def updateRepo (st : PfsState) (repo : String) (provenance : List String)
    (description : String) : Except PfsError PfsState :=
  match alGet st.repos repo with
  | none => .error (.msg "error updating repo")
  | some repoInfo =>
    let provToAdd :=
      dedupKeepFirst (provenance.filter (fun p => !repoInfo.provenance.contains p))
    let provToRemove :=
      dedupKeepFirst (repoInfo.provenance.filter (fun p => !provenance.contains p))
    match alGet st.repoRefCounts repo with
    | none => .error (.notFound repo)
    | some myRefCount0 =>
      let myRefCount := myRefCount0 + 1
      (rcIncrementByAll st.repoRefCounts provToAdd myRefCount).bind fun rc1 =>
      (rcDecrementByAll rc1 provToRemove myRefCount).bind fun rc2 =>
      (listRepoWithProv st [repo]).bind fun downstream =>
      let repos1 := downstream.foldl
        (fun acc ri =>
          let newProv := provToAdd.foldl
            (fun pr np => if pr.contains np then pr else pr ++ [np]) ri.provenance
          let newProv2 := provToRemove.foldl (fun pr op => pr.erase op) newProv
          alPut acc ri.repo { ri with provenance := newProv2 })
        st.repos
      .ok { st with
        repos := alPut repos1 repo
          { repoInfo with description := description, provenance := provenance },
        repoRefCounts := rc2 }

/-- Translation of `createRepo`: validate the name, delegate to `updateRepo`
when updating, refuse an existing repo, compute the provenance closure,
increment each closure member's refcount, create the repo's own refcount at
zero, and create the `RepoInfo`. -/
def createRepo (st : PfsState) (repo : String) (provenance : List String)
    (description : String) (update : Bool) : Except PfsError PfsState :=
  if !validRepoName repo then .error (.msg "repo name invalid")
  else if update then updateRepo st repo provenance description
  else
    match alGet st.repos repo with
    | some _ => .error (.msg "cannot create as it already exists")
    | none =>
      (fullProvOf st provenance).bind fun fullProv =>
      (rcIncrementAll st.repoRefCounts fullProv).bind fun rc1 =>
      (rcCreate rc1 repo 0).bind fun rc2 =>
      .ok { st with
        repos := st.repos ++ [(repo, ⟨repo, st.clock, fullProv, description, 0⟩)],
        repoRefCounts := rc2 }

/-- Translation of `deleteRepo`: unless `force`, refuse when the refcount is
non-zero; then decrement the refcounts of the provenance entries (a missing
counter is skipped), and delete the repo record, its refcount entry, and all
of its commits and branches. -/
def deleteRepo (st : PfsState) (repo : String) (force : Bool) :
    Except PfsError PfsState :=
  (if force then Except.ok () else
    match alGet st.repoRefCounts repo with
    | none => Except.error (PfsError.notFound repo)
    | some refCount =>
      if refCount ≠ 0 then
        Except.error (PfsError.msg "cannot delete the provenance of other repos")
      else Except.ok ()).bind fun _ =>
  match alGet st.repos repo with
  | none => .error (.notFound repo)
  | some repoInfo =>
    match alGet (rcDecAll st.repoRefCounts repoInfo.provenance) repo with
    | none => .error (.notFound repo)
    | some _ =>
      .ok { st with
        repos := alDel st.repos repo,
        repoRefCounts := alDel (rcDecAll st.repoRefCounts repoInfo.provenance) repo,
        commits := st.commits.filter (fun e => decide (e.1.1 ≠ repo)),
        branches := st.branches.filter (fun e => decide (e.1.1 ≠ repo)) }

/-! ## Split-file naming helpers (`splitSuffixFmt = "%016x"`, base 16) -/

/-- Lowercase hexadecimal rendering of a natural number (`Nat.toDigits 16`
uses the lowercase digit characters, like Go's `%x`). -/
def natToHex (n : Nat) : String :=
  String.mk (Nat.toDigits 16 n)

/-- Left-pad with zeros to the given width. -/
def padZeros (w : Nat) (s : String) : String :=
  if s.length ≥ w then s else String.mk (List.replicate (w - s.length) '0') ++ s

/-- Go `fmt.Sprintf("%016x", i)` for an `int`: zero-padded 16-character
lowercase hex; for a negative value the sign comes first and the zero
padding fills the total width. -/
def hex016 (i : Int) : String :=
  if i < 0 then "-" ++ padZeros 15 (natToHex i.natAbs)
  else padZeros 16 (natToHex i.toNat)

/-- Hex digit value (both cases), as accepted by Go `strconv.ParseInt` with
base 16. -/
def hexVal (c : Char) : Option Nat :=
  if c.isDigit then some (c.toNat - 48)
  else if 'a' ≤ c ∧ c ≤ 'f' then some (c.toNat - 87)
  else if 'A' ≤ c ∧ c ≤ 'F' then some (c.toNat - 55)
  else none

/-- Go `strconv.ParseInt(s, 16, 64)`: optional sign, one or more hex digits,
`int64` range check. -/
def goParseHex (s : String) : Option Int :=
  let cs := s.toList
  let signed : Int × List Char :=
    match cs with
    | '+' :: r => (1, r)
    | '-' :: r => (-1, r)
    | r => (1, r)
  if signed.2.isEmpty then none
  else if signed.2.all (fun c => (hexVal c).isSome) then
    let v : Int :=
      signed.1 * ((signed.2.foldl (fun a c => a * 16 + (hexVal c).getD 0) 0 : Nat) : Int)
    if -(2 ^ 63) ≤ v ∧ v ≤ 2 ^ 63 - 1 then some v else none
  else none

/-- The immediate-child name of `p` inside directory `dir`, if `p` lies below
`dir`. -/
def childNameOf (dir p : String) : Option String :=
  if strictUnder dir p then
    let b := pathComponents p
    let k := if dir = "" then 0 else (pathComponents dir).length
    some (b.getD k "")
  else none

/-- Ordered duplicate-free insertion (strings, lexicographic). -/
def insSorted (x : String) : List String → List String
  | [] => [x]
  | y :: ys => if x = y then y :: ys else if x < y then x :: y :: ys else y :: insSorted x ys

def sortDedup (l : List String) : List String :=
  l.foldr insSorted []

/-- hashtree `List` restricted to child names: the immediate children of
`dir`, sorted by name (modelled from the spec: `List` is one of the opaque
hashtree accessors, and the split logic relies on its name order). -/
def childNamesAt (t : HashTree) (dir : String) : List String :=
  sortDedup (t.filterMap (fun e => childNameOf dir e.1))

/-- Go `path.Join` for the two-component case used by the driver. -/
def joinPath (dir name : String) : String :=
  if dir = "" then name else dir ++ "/" ++ name

/-! ## Write-apply engine (driver.go, `applyWrites`) -/

/-- The write loop of the `Split == true` branch: the i-th record becomes a
file named `%016x` of `i + indexOffset` under `filePath`, in record order. -/
def putSplitFiles (filePath : String) (off : Int) :
    HashTree → Nat → List PutFileRecord → Except PfsError HashTree
  | t, _, [] => .ok t
  | t, i, r :: rs =>
    (treePutFile t (joinPath filePath (hex016 ((i : Int) + off))) [r.objectHash]
        r.sizeBytes).bind
      fun t2 => putSplitFiles filePath off t2 (i + 1) rs

/-- The `Split == true` branch of `applyWrites`: list the children of
`filePath`; if any, the last (highest) child name parsed as a base-16 integer
plus one gives the index offset (a parse failure is a user error); then the
records are written in order. -/
def applySplitRecords (tree : HashTree) (filePath : String)
    (records : List PutFileRecord) : Except PfsError HashTree :=
  (match (childNamesAt tree filePath).getLast? with
   | none => Except.ok (0 : Int)
   | some lastName =>
     match goParseHex lastName with
     | none => Except.error (PfsError.msg "error parsing filename as int")
     | some v => Except.ok (v + 1)).bind fun indexOffset =>
  putSplitFiles filePath indexOffset tree 0 records

/-- One non-split record: record the object's size in the size map, then
either overwrite (with the computed size delta) or append.  A directory at
`filePath` makes the Go code dereference a nil `FileNode` while computing the
delta — modelled as `panicNilPointer`.  (A negative overwrite index, which
would make Go panic with an index error inside the delta loop, is not
distinguished: no claim involves it.) -/
def applyOneRecord (tree : HashTree) (sizeMap : List (String × Int))
    (filePath : String) (r : PutFileRecord) :
    Except PfsError (HashTree × List (String × Int)) :=
  let sizeMap2 := alPut sizeMap r.objectHash r.sizeBytes
  match r.overwriteIndex with
  | some idx =>
    (match alGet tree filePath with
     | none =>
       if isDirAt tree filePath then Except.error PfsError.panicNilPointer
       else Except.ok r.sizeBytes
     | some fn =>
       Except.ok (r.sizeBytes -
         ((fn.objects.drop idx.toNat).map (fun h => (alGet sizeMap2 h).getD 0)).sum)).bind
      fun delta =>
    (treePutFileOverwrite tree filePath [r.objectHash] idx delta).map
      (fun t2 => (t2, sizeMap2))
  | none =>
    (treePutFile tree filePath [r.objectHash] r.sizeBytes).map
      (fun t2 => (t2, sizeMap2))

/-- One scratch key-value pair applied to the open tree. -/
def applyKV (acc : HashTree × List (String × Int)) (kv : ScratchKV) :
    Except PfsError (HashTree × List (String × Int)) :=
  match kv.val with
  | .tombstone =>
    match treeDeleteFile acc.1 kv.filePath with
    | .ok t2 => .ok (t2, acc.2)
    | .error .pathNotFound => .ok acc
    | .error e => .error e
  | .recs records =>
    if !records.split then
      if records.records.isEmpty then
        .error (.msg "unexpected 0 length PutFileRecord")
      else
        records.records.foldlM (fun a r => applyOneRecord a.1 a.2 kv.filePath r) acc
    else
      (applySplitRecords acc.1 kv.filePath records.records).map (fun t2 => (t2, acc.2))

/-- Translation of `applyWrites`: fold the scratch stream (in mod-revision
order) over the open tree, threading the size map. -/
def applyWrites (kvs : List ScratchKV) (tree : HashTree) :
    Except PfsError HashTree :=
  (kvs.foldlM applyKV (tree, ([] : List (String × Int)))).map (fun a => a.1)

/-! ## Commit manager (driver.go: `makeCommit`, `finishCommit`,
`deleteCommit`, `listCommit`, branch operations).  For operations composed of
several separate etcd transactions the model gives the success path; an error
result stands for an aborted run (the partially-applied prefix of a failed
multi-transaction operation is not represented, and no claim depends on it). -/

/-- Provenance computation of `makeCommit`: the union of the provenance of
each provenance commit (each of which must exist) plus the directly named
commits, de-duplicated by commit ID (Go keys a map by `c.ID`; its iteration
order is not deterministic, so this model fixes insertion order). -/
def addCommit (l : List Commit) (c : Commit) : List Commit :=
  if l.any (fun x => decide (x.id = c.id)) then
    l.map (fun x => if x.id = c.id then c else x)
  else l ++ [c]

def buildProvenance (st : PfsState) (provenance : List Commit) :
    Except PfsError (List Commit) :=
  (provenance.foldlM
    (fun acc (prov : Commit) =>
      match commitsGet st prov.repo prov.id with
      | none => Except.error (PfsError.notFound prov.id)
      | some pci => Except.ok (pci.provenance.foldl addCommit acc))
    ([] : List Commit)).map fun m =>
  provenance.foldl addCommit m

/-- The parent-ID resolution step of `makeCommit`: with no explicit parent
and a branch given, the branch's current head (when the branch exists)
becomes the parent ID; otherwise `parent.ID` is used as given. -/
def resolveParentID (st : PfsState) (parent : Commit) (branch : String) :
    String :=
  if branch ≠ "" ∧ parent.id = "" then
    match branchesGet st parent.repo branch with
    | some head => head.id
    | none => parent.id
  else parent.id

/-- Translation of `makeCommit` (the body of `startCommit` and
`buildCommit`).  The first statement of the source evaluates `parent.Repo`
for the auth check, which dereferences a nil parent before the source's own
`parent == nil` guard is reached — modelled as `panicNilPointer`.

The nested `inspectCommit`/`getTreeForCommit` calls run in their own
transactions against the committed store, so they read the pre-call state;
the STM buffers the branch-head write, the open-commit insertion and the
commit creation, which all take effect only if the whole transaction
succeeds. -/
def makeCommit (st : PfsState) (parent : Option Commit) (branch : String)
    (provenance : List Commit) (treeRef : Option HashTree) (newID : String) :
    Except PfsError (Commit × PfsState) :=
  match parent with
  | none => .error .panicNilPointer
  | some parent =>
    let commit : Commit := ⟨parent.repo, newID⟩
    match alGet st.repos parent.repo with
    | none => .error (.notFound parent.repo)
    | some repoInfo =>
      (buildProvenance st provenance).bind fun provList =>
      (if resolveParentID st parent branch ≠ "" then
        (inspectCommit st ⟨parent.repo, resolveParentID st parent branch⟩).bind
          fun pci =>
        if pci.finished = none then
          Except.error (PfsError.msg "parent commit has not been finished")
        else Except.ok (some (⟨parent.repo, pci.commit.id⟩ : Commit))
       else Except.ok (none : Option Commit)).bind fun parentResolved =>
      let resolvedID := match parentResolved with
        | some rc => rc.id
        | none => ""
      (getTreeForCommit st (some ⟨parent.repo, resolvedID⟩)).bind fun parentTree =>
      let ciBase : CommitInfo :=
        { commit := commit, parentCommit := parentResolved, started := st.clock,
          finished := none, provenance := provList, tree := none, sizeBytes := 0 }
      match commitsGet st parent.repo newID with
      | some _ => .error (.msg "already exists")
      | none =>
        let stBranch :=
          if branch ≠ "" then
            { st with branches := alPut st.branches (parent.repo, branch) commit }
          else st
        match treeRef with
        | some t =>
          let ci := { ciBase with
            tree := some t,
            sizeBytes := fsSize t,
            finished := some st.clock }
          .ok (commit, { stBranch with
            repos := alPut stBranch.repos parent.repo
              { repoInfo with
                sizeBytes := repoInfo.sizeBytes + sizeChange t parentTree },
            commits := stBranch.commits ++ [((parent.repo, newID), ci)] })
        | none =>
          .ok (commit, { stBranch with
            openCommits := stBranch.openCommits ++ [newID],
            commits := stBranch.commits ++ [((parent.repo, newID), ciBase)] })

/-- `startCommit` is `makeCommit` without a prefabricated tree. -/
def startCommit (st : PfsState) (parent : Option Commit) (branch : String)
    (provenance : List Commit) (newID : String) :
    Except PfsError (Commit × PfsState) :=
  makeCommit st parent branch provenance none newID

/-- The scratch keys of one commit, in mod-revision order. -/
def scratchOf (st : PfsState) (repo id : String) : List ScratchKV :=
  st.scratch.filter (fun kv => decide (kv.repo = repo) && decide (kv.commitID = id))

/-- Translation of `finishCommit`: resolve and refuse finished commits; fold
the commit's scratch stream onto the parent tree; then in one transaction
write the updated record (the serialisation of an empty tree is empty, so the
tree reference is only set when the folded tree is non-empty), remove the
commit from `openCommits` (an absent entry is an error) and bump the repo
size; finally clear the commit's scratch keys. -/
def finishCommit (st : PfsState) (commit : Commit) : Except PfsError PfsState :=
  (inspectCommit st commit).bind fun ci =>
  if ci.finished ≠ none then .error (.msg "has already been finished")
  else
    let rid := ci.commit.id
    let kvs := scratchOf st commit.repo rid
    (getTreeForCommit st ci.parentCommit).bind fun parentTree =>
    (applyWrites kvs parentTree).bind fun finishedTree =>
    let ci2 := { ci with
      tree := if finishedTree.isEmpty then ci.tree else some finishedTree,
      sizeBytes := fsSize finishedTree,
      finished := some st.clock }
    if !st.openCommits.contains rid then
      .error (.msg "could not confirm that commit is open")
    else
      match alGet st.repos commit.repo with
      | none => .error (.notFound commit.repo)
      | some repoInfo =>
        .ok { st with
          commits := alPut st.commits (commit.repo, rid) ci2,
          openCommits := st.openCommits.erase rid,
          repos := alPut st.repos commit.repo
            { repoInfo with
              sizeBytes := repoInfo.sizeBytes + sizeChange finishedTree parentTree },
          scratch := st.scratch.filter
            (fun kv => !(decide (kv.repo = commit.repo) && decide (kv.commitID = rid))) }

/-- `listBranch` for one repo: (name, head) pairs. -/
def listBranchOf (st : PfsState) (repo : String) : List (String × Commit) :=
  st.branches.filterMap
    (fun e => if e.1.1 = repo then some (e.1.2, e.2) else none)

/-- Translation of `setBranch`: resolve the commit, check it exists, write
the head pointer (with the resolved ID). -/
def setBranch (st : PfsState) (commit : Commit) (name : String) :
    Except PfsError PfsState :=
  (inspectCommit st commit).bind fun ci =>
  match commitsGet st commit.repo ci.commit.id with
  | none => .error (.notFound ci.commit.id)
  | some _ =>
    .ok { st with
      branches := alPut st.branches (commit.repo, name) ⟨commit.repo, ci.commit.id⟩ }

/-- Translation of `deleteBranch` (collection `Delete`: a missing key is
`ErrNotFound`). -/
def deleteBranch (st : PfsState) (repo name : String) : Except PfsError PfsState :=
  match alGet st.branches (repo, name) with
  | none => .error (.notFound name)
  | some _ => .ok { st with branches := alDel st.branches (repo, name) }

/-- The branch-retargeting loop of `deleteCommit`: every branch whose head is
the deleted commit is moved to the commit's parent, or deleted when there is
no parent.  Each step is its own transaction, so the state threads through. -/
def retargetBranches (ci : CommitInfo) (repo : String) :
    PfsState → List (String × Commit) → Except PfsError PfsState
  | st, [] => .ok st
  | st, (name, head) :: rest =>
    if head.id = ci.commit.id then
      (match ci.parentCommit with
       | some p => setBranch st p name
       | none => deleteBranch st repo name).bind fun st2 =>
      retargetBranches ci repo st2 rest
    else retargetBranches ci repo st rest

/-- Translation of `deleteCommit`: refuse finished commits; clear the
commit's scratch keys; retarget branches; then delete the record and subtract
the commit size from the repo size.  `openCommits` is not touched. -/
def deleteCommit (st : PfsState) (commit : Commit) : Except PfsError PfsState :=
  (inspectCommit st commit).bind fun ci =>
  if ci.finished ≠ none then .error (.msg "cannot delete finished commit")
  else
    let rid := ci.commit.id
    let st1 := { st with
      scratch := st.scratch.filter
        (fun kv => !(decide (kv.repo = commit.repo) && decide (kv.commitID = rid))) }
    (retargetBranches ci commit.repo st1 (listBranchOf st1 commit.repo)).bind fun st2 =>
    match alGet st2.repos commit.repo with
    | none => .error (.notFound commit.repo)
    | some repoInfo =>
      match commitsGet st2 commit.repo rid with
      | none => .error (.notFound rid)
      | some _ =>
        .ok { st2 with
          repos := alPut st2.repos commit.repo
            { repoInfo with sizeBytes := repoInfo.sizeBytes - ci.sizeBytes },
          commits := alDel st2.commits (commit.repo, rid) }

/-- The parent-chain walk of `listCommit`: collect records from the cursor
downward, stopping when the budget is exhausted, the cursor is nil, or the
cursor equals the (resolved) `from` commit. -/
def listWalk (st : PfsState) (repo : String) (fromID : Option String) :
    Option Commit → Nat → Except PfsError (List CommitInfo)
  | _, 0 => .ok []
  | none, _ => .ok []
  | some c, Nat.succ n =>
    if fromID = some c.id then .ok []
    else
      match commitsGet st repo c.id with
      | none => .error (.notFound c.id)
      | some ci => (listWalk st repo fromID ci.parentCommit n).map (fun l => ci :: l)

/-- Translation of `listCommit`: validate that `from`/`to` belong to the
repo and exist (resolving them); `from` without `to` is an error; `number =
0` becomes `MaxUint64`; with `to` given, walk the parent chain; with neither,
list the repo's commits (collection iteration order). -/
def listCommit (st : PfsState) (repo : String) (toC fromC : Option Commit)
    (number : Nat) : Except PfsError (List CommitInfo) :=
  if (fromC.any (fun f => decide (f.repo ≠ repo))) ||
      (toC.any (fun t => decide (t.repo ≠ repo))) then
    .error (.msg "from and to commits need to be from the repo")
  else
    match alGet st.repos repo with
    | none => .error (.notFound repo)
    | some _ =>
      (match fromC with
       | some f => (inspectCommit st f).map
           (fun ci : CommitInfo => some (⟨f.repo, ci.commit.id⟩ : Commit))
       | none => Except.ok (none : Option Commit)).bind fun fromR =>
      (match toC with
       | some t => (inspectCommit st t).map
           (fun ci : CommitInfo => some (⟨t.repo, ci.commit.id⟩ : Commit))
       | none => Except.ok (none : Option Commit)).bind fun toR =>
      let budget := if number = 0 then 2 ^ 64 - 1 else number
      match fromR, toR with
      | some _, none => .error (.msg "cannot use from commit without to commit")
      | none, none =>
        .ok (((st.commits.filter
            (fun e : (String × String) × CommitInfo => decide (e.1.1 = repo))).map
          (fun e : (String × String) × CommitInfo => e.2)).take budget)
      | _, some toc =>
        listWalk st repo (fromR.map Commit.id) (some toc) budget

/-! ## putFile (driver.go, `putFile`, delimiter `NONE`)

The `LINE`/`JSON` delimiters consume an external reader and are not involved
in any claim; the `NONE` path takes the object-store `PutObjectSplit` result
(object hashes and total size) as input, and the staged-record transaction
(`putRecords`) is shared by all paths. -/

/-- Modelled from the spec: `ChunkSize` is an external constant of the
blob-store contract; its exact value is immaterial here (the theorems take
the chunk size as a parameter). -/
def chunkSize : Int := 8 * 1024 * 1024

/-- The record-building loop of the delimiter-`NONE` path: each object gets
`ChunkSize` while more than a chunk remains, the remainder otherwise; the
first record carries a non-zero overwrite index. -/
def putFileNoneRecords (chunk : Int) (overwriteIndex : Option Int) :
    List String → Int → Nat → List PutFileRecord
  | [], _, _ => []
  | o :: rest, size, i =>
    let sz := if size > chunk then chunk else size
    let ow :=
      if i = 0 then
        match overwriteIndex with
        | some j => if j ≠ 0 then some j else none
        | none => none
      else none
    ⟨sz, o, ow⟩ :: putFileNoneRecords chunk overwriteIndex rest (size - chunk) (i + 1)

/-- `checkPath`: no null character. -/
def checkPath (p : String) : Bool :=
  !(p.toList.contains (Char.ofNat 0))

/-- Translation of `deleteFile`: refuse finished commits, then stage a
tombstone under the resolved commit's scratch space. -/
def deleteFile (st : PfsState) (commit : Commit) (filePath : String)
    (uuid : String) : Except PfsError PfsState :=
  (inspectCommit st commit).bind fun ci =>
  if ci.finished ≠ none then .error (.msg "file commit has finished")
  else
    .ok { st with
      scratch := st.scratch ++
        [⟨commit.repo, ci.commit.id, filePath, uuid, .tombstone⟩] }

/-- Translation of `putFile` (delimiter `NONE`).  An ID that is not a
32-character string with `'4'` at position 12 is resolved first (it may name
a branch); an overwrite at index 0 stages a tombstone; then the records are
staged in a transaction conditioned on the commit's membership in
`openCommits` — when the condition fails the write is rejected with
"commit is not open" and nothing is staged. -/
def putFile (st : PfsState) (commit0 : Commit) (filePath : String)
    (overwriteIndex : Option Int) (objects : List String) (size : Int)
    (tombUuid uuid : String) : Except PfsError PfsState :=
  (if commit0.id.length ≠ 32 ∨ commit0.id.toList.getD 12 ' ' ≠ '4' then
     (inspectCommit st commit0).map
       (fun ci => (⟨commit0.repo, ci.commit.id⟩ : Commit))
   else Except.ok commit0).bind fun commit =>
  (if overwriteIndex = some 0 then deleteFile st commit filePath tombUuid
   else Except.ok st).bind fun st1 =>
  if !checkPath filePath then .error (.msg "filename cannot contain null character")
  else
    let records : PutFileRecords :=
      ⟨false, putFileNoneRecords chunkSize overwriteIndex objects size 0⟩
    if st1.openCommits.contains commit.id then
      .ok { st1 with
        scratch := st1.scratch ++
          [⟨commit.repo, commit.id, filePath, uuid, .recs records⟩] }
    else .error (.msg "commit is not open")

/-- The claim-side description of ancestry resolution: starting from a
commit pointer, the chain is resolvable for depth `n` when every needed
`ParentCommit` link is non-nil and every needed commit record is present. -/
def chainOKB (st : PfsState) (repo : String) : Option Commit → Nat → Bool
  | none, _ => false
  | some c, n =>
    match commitsGet st repo c.id with
    | none => false
    | some ci =>
      match n with
      | 0 => true
      | Nat.succ m => chainOKB st repo ci.parentCommit m

/-- Well-formedness of repo provenance: every name appearing in any repo's
provenance list names an existing repo (no dangling references). -/
def provWFB (st : PfsState) : Bool :=
  st.repos.all (fun e : String × RepoInfo =>
    e.2.provenance.all (fun s => (alGet st.repos s).isSome))

/-- The provenance-closure invariant of the claim: whenever a repo's
provenance contains `S` and `S`'s provenance contains `T`, then `T` is
already in the repo's provenance. -/
def provClosedB (st : PfsState) : Bool :=
  st.repos.all (fun e : String × RepoInfo =>
    e.2.provenance.all (fun s =>
      match alGet st.repos s with
      | none => true
      | some si => si.provenance.all (fun t => e.2.provenance.contains t)))

/-- The claim-side description of the `listCommit` chain: the returned list
is `to, to's parent, to's grandparent, ...`, stopping (exclusively) when the
cursor equals `from`, when the cursor is nil, or when the entry budget is
exhausted (`none` = no limit). -/
def isChainB (st : PfsState) (repo : String) (fromID : Option String) :
    Option Nat → Option Commit → List CommitInfo → Bool
  | limit, cursor, [] =>
    decide (limit = some 0) || decide (cursor = none) ||
      (match cursor with
       | some c => decide (fromID = some c.id)
       | none => false)
  | limit, cursor, ci :: rest =>
    match cursor with
    | none => false
    | some c =>
      !(decide (limit = some 0)) && !(decide (fromID = some c.id)) &&
        decide (commitsGet st repo c.id = some ci) &&
        isChainB st repo fromID (limit.map (fun k => k - 1)) ci.parentCommit rest

/-! ## Concrete fixtures used to evaluate the operations -/

/-- The empty store. -/
def emptyState : PfsState := ⟨[], [], [], [], [], [], 0⟩

/-- A store holding one repo `r` with refcount 0. -/
def repoOnlyState : PfsState :=
  ⟨[("r", ⟨"r", 0, [], "", 0⟩)], [("r", 0)], [], [], [], [], 0⟩

/-- A 32-character commit ID with `'4'` at position 12, as produced by
`uuid.NewWithoutDashes` (UUIDv4). -/
def uuidA : String := "aaaaaaaaaaaa4aaaaaaaaaaaaaaaaaaa"

/-- `startCommit` of a fresh parentless commit on repo `r`. -/
def openedRes : Except PfsError (Commit × PfsState) :=
  makeCommit repoOnlyState (some ⟨"r", ""⟩) "" [] none uuidA

/-- The opened commit, then `deleteCommit`. -/
def deletedRes : Except PfsError PfsState :=
  openedRes.bind fun p => deleteCommit p.2 ⟨"r", uuidA⟩

/-- The opened commit, then `finishCommit`. -/
def finishedRes : Except PfsError PfsState :=
  openedRes.bind fun p => finishCommit p.2 ⟨"r", uuidA⟩

/-- `createRepo a []; createRepo b [a]; createRepo c []; updateRepo c [b]`. -/
def provChainRes : Except PfsError PfsState :=
  (createRepo emptyState "a" [] "" false).bind fun s1 =>
  (createRepo s1 "b" ["a"] "" false).bind fun s2 =>
  (createRepo s2 "c" [] "" false).bind fun s3 =>
  createRepo s3 "c" ["b"] "" true

/-- A store with repo `r` and one open, parentless commit `uuidA`. -/
def openCommitState : PfsState :=
  ⟨[("r", ⟨"r", 0, [], "", 0⟩)], [("r", 0)],
   [(("r", uuidA), ⟨⟨"r", uuidA⟩, none, 0, none, [], none, 0⟩)],
   [], [uuidA], [], 0⟩

/-- `openCommitState` after a successful `finishCommit` of `uuidA`. -/
def finishedLitState : PfsState :=
  ⟨[("r", ⟨"r", 0, [], "", 0⟩)], [("r", 0)],
   [(("r", uuidA), ⟨⟨"r", uuidA⟩, none, 0, some 0, [], none, 0⟩)],
   [], [], [], 0⟩

/-- A second and third commit ID of the same UUID shape. -/
def uuidB : String := "bbbbbbbbbbbb4bbbbbbbbbbbbbbbbbbb"

def uuidC : String := "cccccccccccc4ccccccccccccccccccc"

/-- Repo `r` with a finished commit `uuidB` (head of `master`) and an open
commit `uuidC`. -/
def branchedState : PfsState :=
  ⟨[("r", ⟨"r", 0, [], "", 0⟩)], [("r", 0)],
   [(("r", uuidB), ⟨⟨"r", uuidB⟩, none, 0, some 0, [], none, 0⟩),
    (("r", uuidC), ⟨⟨"r", uuidC⟩, none, 0, none, [], none, 0⟩)],
   [(("r", "master"), ⟨"r", uuidB⟩)], [uuidC], [], 0⟩

/-- `branchedState` after `startCommit(parent.ID = "", branch = master)`
creating `uuidA`: the new commit's parent is the old head `uuidB` and the
branch now points at `uuidA`. -/
def branchedAfterStart : PfsState :=
  ⟨[("r", ⟨"r", 0, [], "", 0⟩)], [("r", 0)],
   [(("r", uuidB), ⟨⟨"r", uuidB⟩, none, 0, some 0, [], none, 0⟩),
    (("r", uuidC), ⟨⟨"r", uuidC⟩, none, 0, none, [], none, 0⟩),
    (("r", uuidA), ⟨⟨"r", uuidA⟩, some ⟨"r", uuidB⟩, 0, none, [], none, 0⟩)],
   [(("r", "master"), ⟨"r", uuidA⟩)], [uuidC, uuidA], [], 0⟩

/-- The record of the open commit `uuidC` in `branchedState`. -/
def openCInfo : CommitInfo := ⟨⟨"r", uuidC⟩, none, 0, none, [], none, 0⟩

/-- Two repos: `b` has provenance `[a]`, so `a` carries refcount 1. -/
def twoRepoState : PfsState :=
  ⟨[("a", ⟨"a", 0, [], "", 0⟩), ("b", ⟨"b", 0, ["a"], "", 0⟩)],
   [("a", 1), ("b", 0)], [], [], [], [], 0⟩

/-- `twoRepoState` after a successful `createRepo c` with provenance `[b]`:
the stored provenance of `c` is the closure `[b, a]`. -/
def provW2State : PfsState :=
  ⟨[("a", ⟨"a", 0, [], "", 0⟩), ("b", ⟨"b", 0, ["a"], "", 0⟩),
    ("c", ⟨"c", 0, ["b", "a"], "", 0⟩)],
   [("a", 2), ("b", 1), ("c", 0)], [], [], [], [], 0⟩

/-- `twoRepoState` after a successful `deleteRepo b`. -/
def delBState : PfsState :=
  ⟨[("a", ⟨"a", 0, [], "", 0⟩)], [("a", 0)], [], [], [], [], 0⟩

/-- `openCommitState` after a `putFile` of one 3-byte object on `uuidA`. -/
def putResState : PfsState :=
  { openCommitState with
    scratch := [⟨"r", uuidA, "f", "u1", .recs ⟨false, [⟨3, "h1", none⟩]⟩⟩] }

/-- A tree holding one split child of `logs`. -/
def splitTree : HashTree := [("logs/0000000000000001", ⟨["o1"], 1⟩)]

/-- `splitTree` after a split batch of one record lands at index offset 2. -/
def splitResTree : HashTree :=
  [("logs/0000000000000001", ⟨["o1"], 1⟩),
   ("logs/0000000000000002", ⟨["h9"], 5⟩)]

/-! ## Generic lemmas about the store primitives -/

theorem alGet_alPut_self {κ β : Type} [DecidableEq κ] (l : List (κ × β))
    (k : κ) (v : β) : alGet (alPut l k v) k = some v := by
  induction l with
  | nil => simp [alPut, alGet]
  | cons p rest ih =>
    by_cases h : p.1 = k
    · simp [alPut, h, alGet]
    · simp [alPut, h, alGet, ih]

theorem alGet_alPut_ne {κ β : Type} [DecidableEq κ] (l : List (κ × β))
    {k q : κ} (v : β) (h : q ≠ k) : alGet (alPut l k v) q = alGet l q := by
  induction l with
  | nil =>
    simp only [alPut, alGet, if_neg (fun hq : k = q => h hq.symm)]
  | cons p rest ih =>
    by_cases hp : p.1 = k
    · subst hp
      simp only [alPut, if_pos rfl, alGet, if_neg (fun hq : p.1 = q => h hq.symm)]
    · by_cases hq : p.1 = q
      · simp only [alPut, if_neg hp, alGet, if_pos hq]
      · simp only [alPut, if_neg hp, alGet, if_neg hq, ih]

theorem alGet_append {κ β : Type} [DecidableEq κ] (l1 l2 : List (κ × β))
    (k : κ) : alGet (l1 ++ l2) k =
      (match alGet l1 k with
       | some v => some v
       | none => alGet l2 k) := by
  induction l1 with
  | nil => simp [alGet]
  | cons p rest ih =>
    by_cases h : p.1 = k
    · simp [alGet, h]
    · simp [alGet, h, ih]

theorem alGet_rcDecrementNF (rc : List (String × Int)) (p k : String) :
    alGet (rcDecrementNF rc p) k =
      if p = k then (alGet rc k).map (fun v => v - 1) else alGet rc k := by
  unfold rcDecrementNF
  by_cases h : p = k
  · subst h
    cases hv : alGet rc p with
    | none => simp [hv]
    | some v => simp [hv, alGet_alPut_self]
  · cases hv : alGet rc p with
    | none => simp [h]
    | some v => simp [h, alGet_alPut_ne rc _ (fun hq => h hq.symm)]

theorem alGet_rcDecAll (ks : List String) (rc : List (String × Int))
    (k : String) :
    alGet (rcDecAll rc ks) k =
      (alGet rc k).map (fun v => v - (ks.count k : Int)) := by
  induction ks generalizing rc with
  | nil =>
    cases h : alGet rc k <;> simp [show rcDecAll rc [] = rc from rfl, h]
  | cons p ks ih =>
    have h1 : rcDecAll rc (p :: ks) = rcDecAll (rcDecrementNF rc p) ks := rfl
    rw [h1, ih, alGet_rcDecrementNF]
    by_cases h : p = k
    · subst h
      rw [if_pos rfl]
      cases hv : alGet rc p with
      | none => simp
      | some v =>
        have hc : List.count p (p :: ks) = List.count p ks + 1 := by
          simp [List.count_cons]
        rw [hc]
        simp only [Option.map_some']
        congr 1
        push_cast
        ring
    · rw [if_neg h]
      have hc : List.count k (p :: ks) = List.count k ks := by
        simp [List.count_cons, h, fun hq : k = p => h hq.symm]
      rw [hc]

theorem alDel_cons {κ β : Type} [DecidableEq κ] (p : κ × β)
    (rest : List (κ × β)) (k : κ) :
    alDel (p :: rest) k =
      if p.1 = k then alDel rest k else p :: alDel rest k := by
  by_cases h : p.1 = k <;> simp [alDel, List.filter_cons, h]

theorem alGet_alDel_self {κ β : Type} [DecidableEq κ] (l : List (κ × β))
    (k : κ) : alGet (alDel l k) k = none := by
  induction l with
  | nil => rfl
  | cons p rest ih =>
    rw [alDel_cons]
    by_cases h : p.1 = k
    · rw [if_pos h]; exact ih
    · rw [if_neg h]
      simp only [alGet, if_neg h]
      exact ih

theorem alGet_alDel_ne {κ β : Type} [DecidableEq κ] (l : List (κ × β))
    {k q : κ} (h : q ≠ k) : alGet (alDel l k) q = alGet l q := by
  induction l with
  | nil => rfl
  | cons p rest ih =>
    rw [alDel_cons]
    by_cases hp : p.1 = k
    · rw [if_pos hp, ih]
      simp only [alGet, if_neg (show ¬p.1 = q from fun he => h (he ▸ hp))]
    · rw [if_neg hp]
      by_cases hq : p.1 = q
      · simp only [alGet, if_pos hq]
      · simp only [alGet, if_neg hq]
        exact ih

/-- Lookup after deleting every entry of one repo (the `DeleteAll` of the
per-repo `commits`/`branches` collections). -/
theorem alGet_filterRepo {β : Type} (l : List ((String × String) × β))
    (repo rp id : String) :
    alGet (l.filter (fun e => decide (e.1.1 ≠ repo))) (rp, id) =
      if rp = repo then none else alGet l (rp, id) := by
  have hcons : ∀ (p : (String × String) × β) (rest : List ((String × String) × β)),
      (p :: rest).filter (fun e => decide (e.1.1 ≠ repo)) =
        if p.1.1 = repo then rest.filter (fun e => decide (e.1.1 ≠ repo))
        else p :: rest.filter (fun e => decide (e.1.1 ≠ repo)) := by
    intro p rest
    by_cases h : p.1.1 = repo <;> simp [List.filter_cons, h]
  induction l with
  | nil => by_cases h : rp = repo <;> simp [alGet, h]
  | cons p rest ih =>
    rw [hcons]
    by_cases hp : p.1.1 = repo
    · rw [if_pos hp, ih]
      by_cases h : rp = repo
      · rw [if_pos h, if_pos h]
      · rw [if_neg h, if_neg h]
        have hne : ¬p.1 = (rp, id) := by
          intro he
          apply h
          have h11 : p.1.1 = rp := by rw [he]
          rw [← h11]
          exact hp
        simp only [alGet, if_neg hne]
    · rw [if_neg hp]
      by_cases hq : p.1 = (rp, id)
      · have h : ¬rp = repo := by
          intro he
          apply hp
          rw [hq, he]
        rw [if_neg h]
        simp only [alGet, if_pos hq]
      · simp only [alGet, if_neg hq]
        rw [ih]

theorem exceptBind_ok {α β : Type} {x : Except PfsError α}
    {f : α → Except PfsError β} {b : β} (h : x.bind f = .ok b) :
    ∃ a, x = .ok a ∧ f a = .ok b := by
  cases x with
  | error e => simp [Except.bind] at h
  | ok a => exact ⟨a, rfl, h⟩

theorem alGet_append_fresh {κ β : Type} [DecidableEq κ] (l : List (κ × β))
    (k : κ) (v : β) (h : alGet l k = none) :
    alGet (l ++ [(k, v)]) k = some v := by
  rw [alGet_append, h]
  simp [alGet]

theorem contains_iff_mem {l : List String} {a : String} :
    l.contains a = true ↔ a ∈ l := by
  simp

theorem alGet_mem {κ β : Type} [DecidableEq κ] {l : List (κ × β)} {k : κ}
    {v : β} (h : alGet l k = some v) : (k, v) ∈ l := by
  induction l with
  | nil => simp [alGet] at h
  | cons p rest ih =>
    by_cases hp : p.1 = k
    · rw [alGet, if_pos hp] at h
      have hv : p.2 = v := by injection h
      have hpkv : p = (k, v) := by
        cases p; cases hp; cases hv; rfl
      rw [← hpkv]
      exact List.mem_cons_self _ _
    · rw [alGet, if_neg hp] at h
      exact List.mem_cons_of_mem _ (ih h)

theorem alGet_append_left {κ β : Type} [DecidableEq κ] {l1 : List (κ × β)}
    (l2 : List (κ × β)) {k : κ} {v : β} (h : alGet l1 k = some v) :
    alGet (l1 ++ l2) k = some v := by
  rw [alGet_append, h]

theorem exceptBindM_ok {α β : Type} {x : Except PfsError α}
    {f : α → Except PfsError β} {b : β} (h : x >>= f = .ok b) :
    ∃ a, x = .ok a ∧ f a = .ok b := by
  cases x with
  | error e => exact absurd h (by simp [Bind.bind, Except.bind])
  | ok a => exact ⟨a, rfl, h⟩

theorem mem_addName {l : List String} {n a : String} :
    a ∈ addName l n ↔ a ∈ l ∨ a = n := by
  unfold addName
  by_cases h : l.contains n
  · rw [if_pos h]
    constructor
    · exact Or.inl
    · rintro (ha | rfl)
      · exact ha
      · exact contains_iff_mem.mp h
  · rw [if_neg h]
    simp [List.mem_append]

theorem mem_addNames : ∀ (ns l : List String) (a : String),
    a ∈ addNames l ns ↔ a ∈ l ∨ a ∈ ns := by
  intro ns
  induction ns with
  | nil => intro l a; simp [addNames]
  | cons n rest ih =>
    intro l a
    have h1 : addNames l (n :: rest) = addNames (addName l n) rest := rfl
    rw [h1, ih, mem_addName]
    simp only [List.mem_cons]
    tauto

/-- Membership specification of the provenance-closure fold of `createRepo`
(`fullProvOf`): on success the accumulator is preserved, every direct
provenance repo exists is included together with its whole stored provenance,
and nothing else gets in. -/
theorem fullProv_fold_spec (st : PfsState) :
    ∀ (prov acc out : List String),
      (prov.foldlM
        (fun acc p =>
          match alGet st.repos p with
          | none => Except.error (PfsError.notFound p)
          | some pi => Except.ok (addNames (addName acc p) pi.provenance)) acc
        = Except.ok out) →
      ((∀ s ∈ acc, s ∈ out) ∧
       (∀ p ∈ prov, ∃ pi, alGet st.repos p = some pi ∧ p ∈ out ∧
         ∀ t ∈ pi.provenance, t ∈ out) ∧
       (∀ s ∈ out, s ∈ acc ∨ ∃ p pi, p ∈ prov ∧ alGet st.repos p = some pi ∧
         (s = p ∨ s ∈ pi.provenance))) := by
  intro prov
  induction prov with
  | nil =>
    intro acc out h
    simp only [List.foldlM_nil] at h
    have hao : Except.ok acc = Except.ok out := h
    have ha : acc = out := by injection hao
    subst ha
    refine ⟨fun s hs => hs, ?_, fun s hs => Or.inl hs⟩
    intro p hp
    exact absurd hp (List.not_mem_nil p)
  | cons q rest ih =>
    intro acc out h
    simp only [List.foldlM_cons] at h
    cases hq : alGet st.repos q with
    | none =>
      simp only [hq] at h
      obtain ⟨a, hx, _⟩ := exceptBindM_ok h
      exact Except.noConfusion hx
    | some qi =>
      simp only [hq] at h
      obtain ⟨a, hx, h2⟩ := exceptBindM_ok h
      have ha : addNames (addName acc q) qi.provenance = a := by injection hx
      subst ha
      obtain ⟨ih1, ih2, ih3⟩ := ih _ out h2
      refine ⟨?_, ?_, ?_⟩
      · intro s hs
        exact ih1 s ((mem_addNames _ _ s).mpr (Or.inl (mem_addName.mpr (Or.inl hs))))
      · intro p hp
        rcases List.mem_cons.mp hp with rfl | hpr
        · exact ⟨qi, hq,
            ih1 _ ((mem_addNames _ _ _).mpr (Or.inl (mem_addName.mpr (Or.inr rfl)))),
            fun t ht => ih1 t ((mem_addNames _ _ t).mpr (Or.inr ht))⟩
        · exact ih2 p hpr
      · intro s hs
        rcases ih3 s hs with hacc | ⟨p, pi, hp, hg, hc⟩
        · rcases (mem_addNames _ _ s).mp hacc with h1 | h2
          · rcases mem_addName.mp h1 with h3 | rfl
            · exact Or.inl h3
            · exact Or.inr ⟨s, qi, List.mem_cons_self _ _, hq, Or.inl rfl⟩
          · exact Or.inr ⟨q, qi, List.mem_cons_self _ _, hq, Or.inr h2⟩
        · exact Or.inr ⟨p, pi, List.mem_cons_of_mem _ hp, hg, hc⟩

/-! ## Claims -/

/-- C10: calling `startCommit`/`buildCommit` (`makeCommit`) with a nil parent
does not return the "parent cannot be nil" error: the first statement of the
source evaluates `parent.Repo` for the authorization check, so the call
faults with a nil-pointer dereference before the nil check is reached (the
check at lines 550-552 is dead code). -/
theorem makeCommit_nilParent_faults :
    makeCommit repoOnlyState none "master" [] none uuidA =
      .error .panicNilPointer := rfl

/-- C2: a scratch write via `putFile` on a full-UUID commit is indeed
rejected with "commit is not open" after `finishCommit` — but not after
`deleteCommit`: `deleteCommit` never removes the commit from `openCommits`
(driver.go lines 1251-1312 touch scratch, branches, the commit record and
the repo size only), so the conditional transaction in `putFile` still
succeeds and stages a scratch record for the deleted commit. -/
theorem putFile_after_deleteCommit_is_accepted :
    ((deletedRes.bind fun s =>
        putFile s ⟨"r", uuidA⟩ "f" none ["h1"] 5 "u0" "u1").map
      (fun s => s.scratch.map (fun kv => (kv.commitID, kv.filePath)))) =
      .ok [(uuidA, "f")] ∧
    (finishedRes.bind fun s =>
        putFile s ⟨"r", uuidA⟩ "f" none ["h1"] 5 "u0" "u1") =
      .error (.msg "commit is not open") := by
  constructor
  · decide
  · decide

/-- C5 counterexample: `finishCommit` on an open commit with no staged
writes succeeds, removes the commit from `openCommits`, clears scratch and
stamps `Finished` — but the record does not carry a `Tree`: the folded tree
is empty, its serialisation is empty, and the tree reference stays nil. -/
theorem finishCommit_tree_can_stay_nil :
    (finishedRes.map fun s =>
        (alGet s.commits ("r", uuidA)).map
          (fun ci => (ci.tree, ci.finished.isSome, ci.sizeBytes))) =
      .ok (some (none, true, 0)) := by decide

theorem filterNot_filter_nil {α : Type} (p : α → Bool) (l : List α) :
    (l.filter (fun a => !(p a))).filter p = [] := by
  induction l with
  | nil => rfl
  | cons a l ih =>
    by_cases h : p a = true
    · simp [List.filter, h, ih]
    · simp only [List.filter, Bool.not_eq_true] at h
      simp [List.filter, h, ih]

/-- C5 (amended): a successful `finishCommit` resolves the commit, folds its
scratch stream onto the parent tree, and afterwards the record carries the
folded tree's size as `SizeBytes`, a non-nil `Finished` stamp, and the folded
tree as `Tree` whenever that tree is non-empty (an empty folded tree leaves
the reference unchanged — nil for a commit opened by `startCommit`); the
commit is no longer in `openCommits` and no scratch keys of the commit
remain. -/
theorem finishCommit_postconditions (st : PfsState) (c : Commit)
    (st2 : PfsState) (hnd : st.openCommits.Nodup)
    (h : finishCommit st c = .ok st2) :
    ∃ ci ptree ftree,
      inspectCommit st c = .ok ci ∧
      getTreeForCommit st ci.parentCommit = .ok ptree ∧
      applyWrites (scratchOf st c.repo ci.commit.id) ptree = .ok ftree ∧
      (∃ ci2, alGet st2.commits (c.repo, ci.commit.id) = some ci2 ∧
        ci2.finished = some st.clock ∧
        ci2.sizeBytes = fsSize ftree ∧
        ci2.tree = (if ftree.isEmpty then ci.tree else some ftree)) ∧
      scratchOf st2 c.repo ci.commit.id = [] ∧
      ci.commit.id ∉ st2.openCommits := by
  unfold finishCommit at h
  obtain ⟨ci, hci, h⟩ := exceptBind_ok h
  refine ⟨ci, ?_⟩
  by_cases hf : ci.finished = none
  · rw [if_neg (by simp [hf])] at h
    obtain ⟨ptree, hpt, h⟩ := exceptBind_ok h
    obtain ⟨ftree, hft, h⟩ := exceptBind_ok h
    refine ⟨ptree, ftree, hci, hpt, hft, ?_⟩
    cases hopen : st.openCommits.contains ci.commit.id with
    | false =>
      rw [hopen] at h
      simp at h
    | true =>
      rw [hopen] at h
      simp only [Bool.not_true] at h
      rw [if_neg Bool.false_ne_true] at h
      cases hri : alGet st.repos c.repo with
      | none => rw [hri] at h; cases h
      | some ri =>
        rw [hri] at h
        cases h
        refine ⟨⟨_, alGet_alPut_self _ _ _, rfl, rfl, rfl⟩, ?_, ?_⟩
        · exact filterNot_filter_nil
            (fun kv : ScratchKV =>
              decide (kv.repo = c.repo) && decide (kv.commitID = ci.commit.id))
            st.scratch
        · intro hmem
          have hme := (List.Nodup.mem_erase_iff hnd).mp hmem
          exact hme.1 rfl
  · rw [if_pos hf] at h
    cases h

/-- Witness for the amended C5 theorem at a concrete input. -/
theorem finishCommit_postconditions_witness :
    ∃ ci ptree ftree,
      inspectCommit openCommitState ⟨"r", uuidA⟩ = .ok ci ∧
      getTreeForCommit openCommitState ci.parentCommit = .ok ptree ∧
      applyWrites (scratchOf openCommitState (Commit.mk "r" uuidA).repo ci.commit.id)
        ptree = .ok ftree ∧
      (∃ ci2, alGet finishedLitState.commits ((Commit.mk "r" uuidA).repo, ci.commit.id) =
          some ci2 ∧
        ci2.finished = some openCommitState.clock ∧
        ci2.sizeBytes = fsSize ftree ∧
        ci2.tree = (if ftree.isEmpty then ci.tree else some ftree)) ∧
      scratchOf finishedLitState (Commit.mk "r" uuidA).repo ci.commit.id = [] ∧
      ci.commit.id ∉ finishedLitState.openCommits :=
  finishCommit_postconditions openCommitState ⟨"r", uuidA⟩ finishedLitState
    (by decide) (by decide)

/-- C6: `deleteRepo(repo, force=false)` fails (leaving the store untouched —
an aborted transaction) when the repo's refcount is positive; a successful
`deleteRepo` decrements the refcount of every occurrence of a repo in the
deleted repo's provenance (a missing counter entry stays missing), and
removes the repo record, its refcount entry, and all of its commits and
branches. -/
theorem deleteRepo_refcount_gate_and_cleanup (st : PfsState) (repo : String)
    (force : Bool) :
    (∀ rc : Int, alGet st.repoRefCounts repo = some rc → rc ≠ 0 →
      deleteRepo st repo false =
        .error (.msg "cannot delete the provenance of other repos")) ∧
    (∀ st2, deleteRepo st repo force = .ok st2 →
      ∃ ri, alGet st.repos repo = some ri ∧
        alGet st2.repos repo = none ∧
        alGet st2.repoRefCounts repo = none ∧
        (∀ n, n ≠ repo →
          alGet st2.repoRefCounts n =
            (alGet st.repoRefCounts n).map
              (fun v => v - (ri.provenance.count n : Int))) ∧
        (∀ rp id, alGet st2.commits (rp, id) =
          if rp = repo then none else alGet st.commits (rp, id)) ∧
        (∀ rp nm, alGet st2.branches (rp, nm) =
          if rp = repo then none else alGet st.branches (rp, nm))) := by
  constructor
  · intro rc hrc hpos
    unfold deleteRepo
    simp only [Bool.false_eq_true, if_false, hrc]
    rw [if_pos hpos]
    rfl
  · intro st2 h
    unfold deleteRepo at h
    obtain ⟨u, hu, h⟩ := exceptBind_ok h
    split at h
    · cases h
    · rename_i ri hri
      split at h
      · cases h
      · rename_i v hrc2
        cases h
        refine ⟨ri, hri, alGet_alDel_self _ _, alGet_alDel_self _ _, ?_, ?_, ?_⟩
        · intro n hn
          rw [alGet_alDel_ne _ hn, alGet_rcDecAll]
        · intro rp id
          exact alGet_filterRepo _ _ _ _
        · intro rp nm
          exact alGet_filterRepo _ _ _ _

/-- Witness for C6 at concrete inputs: deleting `a` (refcount 1) is refused;
deleting `b` succeeds and decrements `a`'s refcount. -/
theorem deleteRepo_refcount_gate_and_cleanup_witness :
    deleteRepo twoRepoState "a" false =
      .error (.msg "cannot delete the provenance of other repos") ∧
    (∃ ri, alGet twoRepoState.repos "b" = some ri ∧
      alGet delBState.repos "b" = none ∧
      alGet delBState.repoRefCounts "b" = none ∧
      (∀ n, n ≠ "b" →
        alGet delBState.repoRefCounts n =
          (alGet twoRepoState.repoRefCounts n).map
            (fun v => v - (ri.provenance.count n : Int))) ∧
      (∀ rp id, alGet delBState.commits (rp, id) =
        if rp = "b" then none else alGet twoRepoState.commits (rp, id)) ∧
      (∀ rp nm, alGet delBState.branches (rp, nm) =
        if rp = "b" then none else alGet twoRepoState.branches (rp, nm))) :=
  ⟨(deleteRepo_refcount_gate_and_cleanup twoRepoState "a" false).1 1
      (by decide) (by decide),
   (deleteRepo_refcount_gate_and_cleanup twoRepoState "b" false).2 delBState
      (by decide)⟩

/-- Inversion of a successful `makeCommit`: the repo exists, the commit ID
was fresh, the created record is stored, and its parent pointer is the
resolved parent — a finished commit fetched under `resolveParentID` when that
ID is non-empty, `none` when it is empty. -/
theorem makeCommit_ok_inv (st : PfsState) (parent : Commit) (branch : String)
    (prov : List Commit) (treeRef : Option HashTree) (newID : String)
    (c : Commit) (st2 : PfsState)
    (h : makeCommit st (some parent) branch prov treeRef newID = .ok (c, st2)) :
    ∃ ci, alGet st.commits (parent.repo, newID) = none ∧
      alGet st2.commits (parent.repo, newID) = some ci ∧
      (resolveParentID st parent branch ≠ "" →
        ∃ pci, inspectCommit st ⟨parent.repo, resolveParentID st parent branch⟩ =
            .ok pci ∧
          pci.finished ≠ none ∧
          ci.parentCommit = some ⟨parent.repo, pci.commit.id⟩) ∧
      (resolveParentID st parent branch = "" → ci.parentCommit = none) := by
  simp only [makeCommit] at h
  split at h
  · cases h
  · rename_i ri hri
    obtain ⟨provList, hpl, h⟩ := exceptBind_ok h
    obtain ⟨parentResolved, hpr, h⟩ := exceptBind_ok h
    obtain ⟨ptree, hpt, h⟩ := exceptBind_ok h
    split at h
    · cases h
    · rename_i hfresh
      have hfresh2 : alGet
          (if branch ≠ "" then
            { st with
              branches :=
                alPut st.branches (parent.repo, branch)
                  (⟨parent.repo, newID⟩ : Commit) }
           else st).commits (parent.repo, newID) = none := by
        by_cases hb : branch = ""
        · rw [if_neg (fun hc : branch ≠ "" => hc hb)]
          exact hfresh
        · rw [if_pos hb]
          exact hfresh
      have hparent :
          (resolveParentID st parent branch ≠ "" →
            ∃ pci, inspectCommit st
                ⟨parent.repo, resolveParentID st parent branch⟩ = .ok pci ∧
              pci.finished ≠ none ∧
              parentResolved = some (⟨parent.repo, pci.commit.id⟩ : Commit)) ∧
          (resolveParentID st parent branch = "" → parentResolved = none) := by
        by_cases hpid : resolveParentID st parent branch = ""
        · rw [if_neg (by simp [hpid])] at hpr
          cases hpr
          exact ⟨fun hc => absurd hpid hc, fun _ => rfl⟩
        · rw [if_pos hpid] at hpr
          obtain ⟨pci, hpci, hg⟩ := exceptBind_ok hpr
          by_cases hfin : pci.finished = none
          · rw [if_pos hfin] at hg; cases hg
          · rw [if_neg hfin] at hg
            cases hg
            exact ⟨fun _ => ⟨pci, hpci, hfin, rfl⟩, fun hc => absurd hc hpid⟩
      split at h
      · rename_i t
        cases h
        refine ⟨_, hfresh, alGet_append_fresh _ _ _ hfresh2, ?_, ?_⟩
        · intro hpid
          obtain ⟨pci, h1, h2, h3⟩ := hparent.1 hpid
          exact ⟨pci, h1, h2, by rw [h3]⟩
        · intro hpid
          rw [hparent.2 hpid]
      · cases h
        refine ⟨_, hfresh, alGet_append_fresh _ _ _ hfresh2, ?_, ?_⟩
        · intro hpid
          obtain ⟨pci, h1, h2, h3⟩ := hparent.1 hpid
          exact ⟨pci, h1, h2, by rw [h3]⟩
        · intro hpid
          rw [hparent.2 hpid]

/-- C4: in `makeCommit` (`startCommit`/`buildCommit`), when `parent.ID` is
empty and `branch` is non-empty, a successfully created commit's parent is
the branch's current head (resolved through `inspectCommit`, which requires
it to be finished), and no parent when the branch does not exist; when
`parent.ID` is non-empty it is used as given — the parent is fetched, the
call fails when the fetched parent is still open (`Finished = nil`; the
model's error result is an aborted transaction, so no commit is created),
and on success the stored parent pointer is the resolved `parent.ID`. -/
theorem makeCommit_parent_rules (st : PfsState) (parent : Commit)
    (branch : String) (prov : List Commit) (treeRef : Option HashTree)
    (newID : String) :
    (parent.id = "" → branch ≠ "" →
      ∀ c st2,
        makeCommit st (some parent) branch prov treeRef newID = .ok (c, st2) →
        ∃ ci, alGet st2.commits (parent.repo, newID) = some ci ∧
          (branchesGet st parent.repo branch = none → ci.parentCommit = none) ∧
          (∀ head, branchesGet st parent.repo branch = some head →
            head.id ≠ "" →
            ∃ hci, inspectCommit st ⟨parent.repo, head.id⟩ = .ok hci ∧
              hci.finished ≠ none ∧
              ci.parentCommit = some ⟨parent.repo, hci.commit.id⟩)) ∧
    (parent.id ≠ "" →
      (∀ pci, inspectCommit st ⟨parent.repo, parent.id⟩ = .ok pci →
        pci.finished = none →
        ∀ r, makeCommit st (some parent) branch prov treeRef newID ≠ .ok r) ∧
      (∀ c st2,
        makeCommit st (some parent) branch prov treeRef newID = .ok (c, st2) →
        ∃ pci ci, inspectCommit st ⟨parent.repo, parent.id⟩ = .ok pci ∧
          pci.finished ≠ none ∧
          alGet st2.commits (parent.repo, newID) = some ci ∧
          ci.parentCommit = some ⟨parent.repo, pci.commit.id⟩)) := by
  constructor
  · intro hpid hbr c st2 h
    obtain ⟨ci, hfresh, hget, hP1, hP0⟩ :=
      makeCommit_ok_inv st parent branch prov treeRef newID c st2 h
    have hrp : resolveParentID st parent branch =
        (match branchesGet st parent.repo branch with
         | some head => head.id
         | none => parent.id) := by
      unfold resolveParentID
      rw [if_pos ⟨hbr, hpid⟩]
    cases hb : branchesGet st parent.repo branch with
    | none =>
      refine ⟨ci, hget, fun _ => ?_, fun head hh => ?_⟩
      · apply hP0
        rw [hrp, hb, hpid]
      · cases hh
    | some head =>
      refine ⟨ci, hget, fun hc => ?_, fun head2 hh hne => ?_⟩
      · cases hc
      · cases hh
        have hrp2 : resolveParentID st parent branch = head.id := by
          rw [hrp, hb]
        obtain ⟨pci, h1, h2, h3⟩ := hP1 (by rw [hrp2]; exact hne)
        rw [hrp2] at h1
        exact ⟨pci, h1, h2, h3⟩
  · intro hpid
    have hrp : resolveParentID st parent branch = parent.id := by
      unfold resolveParentID
      rw [if_neg (fun hc => hpid hc.2)]
    constructor
    · intro pci hpci hfin r hok
      obtain ⟨ci, hfresh, hget, hP1, hP0⟩ :=
        makeCommit_ok_inv st parent branch prov treeRef newID r.1 r.2
          (by rw [← hok])
      obtain ⟨pci2, h1, h2, h3⟩ := hP1 (by rw [hrp]; exact hpid)
      rw [hrp, hpci] at h1
      cases h1
      exact h2 hfin
    · intro c st2 h
      obtain ⟨ci, hfresh, hget, hP1, hP0⟩ :=
        makeCommit_ok_inv st parent branch prov treeRef newID c st2 h
      obtain ⟨pci, h1, h2, h3⟩ := hP1 (by rw [hrp]; exact hpid)
      rw [hrp] at h1
      exact ⟨pci, ci, h1, h2, hget, h3⟩

/-- Witness for C4 at concrete inputs: starting a commit on `master` with an
empty parent ID picks the head `uuidB` as parent, and starting a commit whose
explicit parent `uuidC` is still open is refused. -/
theorem makeCommit_parent_rules_witness :
    (∃ ci, alGet branchedAfterStart.commits ("r", uuidA) = some ci ∧
      (branchesGet branchedState "r" "master" = none → ci.parentCommit = none) ∧
      (∀ head, branchesGet branchedState "r" "master" = some head →
        head.id ≠ "" →
        ∃ hci, inspectCommit branchedState ⟨"r", head.id⟩ = .ok hci ∧
          hci.finished ≠ none ∧
          ci.parentCommit = some ⟨"r", hci.commit.id⟩)) ∧
    makeCommit branchedState (some ⟨"r", uuidC⟩) "" [] none uuidA ≠
      .ok (⟨"r", uuidA⟩, branchedState) :=
  ⟨(makeCommit_parent_rules branchedState ⟨"r", ""⟩ "master" [] none uuidA).1
      rfl (by decide) ⟨"r", uuidA⟩ branchedAfterStart (by decide),
   ((makeCommit_parent_rules branchedState ⟨"r", uuidC⟩ "" [] none uuidA).2
      (by decide)).1 openCInfo (by decide) rfl (⟨"r", uuidA⟩, branchedState)⟩

theorem sepRunOnly_eq_all (sep : Char) (l : List Char) :
    sepRunOnly sep l = l.all (fun c => decide (c = sep)) := by
  induction l with
  | nil => rfl
  | cons c r ih =>
    by_cases h : c = sep
    · simp [sepRunOnly, h, ih]
    · simp [sepRunOnly, h]

theorem findIdxSome_lt {α : Type} (p : α → Bool) (l : List α) (i : Nat)
    (h : l.findIdx? p = some i) : i < l.length := by
  induction l generalizing i with
  | nil => simp [List.findIdx?] at h
  | cons a l ih =>
    rw [List.findIdx?_cons] at h
    by_cases hp : p a = true
    · simp [hp] at h
      subst h
      simp
    · simp [hp] at h
      cases i with
      | zero => simp at h
      | succ j =>
        simp at h
        simpa using Nat.succ_lt_succ (ih j h)

/-- C3: commit-reference resolution.  (1) `parseCommitID` computes exactly
the claim's rule: N is the integer after the first `^`/`~` when one parses,
else the length of the run of repeated identical separators, else 0 with the
whole reference kept as the base.  (2) The parent walk succeeds exactly when
every needed `ParentCommit` link is non-nil and every record present, and
returns `ErrCommitNotFound` otherwise.  (3) `inspectCommit` (for N ≥ 0) first
rewrites the base token to the branch head when it names a branch, then walks
parent links N times. -/
theorem inspectCommit_ancestry_resolution :
    (∀ s, parseCommitID s = ancestrySpec s) ∧
    (∀ st repo orig oc n,
      ((walkParents st repo orig oc n).isOk = true ↔
        chainOKB st repo oc n = true) ∧
      (chainOKB st repo oc n = false →
        ∃ cc, walkParents st repo orig oc n = .error (.commitNotFound cc))) ∧
    (∀ st (c : Commit), 0 ≤ (parseCommitID c.id).2 →
      inspectCommit st c =
        walkParents st c.repo c
          (some ⟨c.repo,
            (match branchesGet st c.repo (parseCommitID c.id).1 with
             | some head => head.id
             | none => (parseCommitID c.id).1)⟩)
          (parseCommitID c.id).2.toNat) := by
  refine ⟨?_, ?_, ?_⟩
  · intro s
    simp only [parseCommitID, ancestrySpec]
    cases hf : s.toList.findIdx? (fun c => c = '^' || c = '~') with
    | none => rfl
    | some i =>
      have hlt : i < s.toList.length := findIdxSome_lt _ _ _ hf
      simp only
      cases goAtoi (String.mk (s.toList.drop (i + 1))) with
      | some n => rfl
      | none =>
        simp only [sepRunOnly_eq_all]
        by_cases hall : (s.toList.drop (i + 1)).all
            (fun c => decide (c = s.toList.getD i ' ')) = true
        · rw [if_pos hall, if_pos hall]
          have hlen : (s.toList.drop (i + 1)).length = s.toList.length - (i + 1) :=
            List.length_drop _ _
          refine congrArg _ ?_
          rw [hlen]
          omega
        · rw [if_neg hall, if_neg hall]
  · intro st repo orig oc n
    induction n generalizing oc with
    | zero =>
      cases oc with
      | none => exact ⟨by simp [walkParents, chainOKB, Except.isOk, Except.toBool],
          fun _ => ⟨orig, rfl⟩⟩
      | some c =>
        cases hg : commitsGet st repo c.id with
        | none =>
          exact ⟨by simp [walkParents, chainOKB, hg, Except.isOk, Except.toBool],
            fun _ => ⟨c, by simp [walkParents, hg]⟩⟩
        | some ci =>
          refine ⟨by simp [walkParents, chainOKB, hg, Except.isOk, Except.toBool],
            fun hc => ?_⟩
          rw [chainOKB, hg] at hc
          cases hc
    | succ m ih =>
      cases oc with
      | none => exact ⟨by simp [walkParents, chainOKB, Except.isOk, Except.toBool],
          fun _ => ⟨orig, rfl⟩⟩
      | some c =>
        cases hg : commitsGet st repo c.id with
        | none =>
          exact ⟨by simp [walkParents, chainOKB, hg, Except.isOk, Except.toBool],
            fun _ => ⟨c, by simp [walkParents, hg]⟩⟩
        | some ci =>
          have hm := ih ci.parentCommit
          constructor
          · rw [show walkParents st repo orig (some c) (Nat.succ m) =
                walkParents st repo orig ci.parentCommit m by
                  simp [walkParents, hg],
              show chainOKB st repo (some c) (Nat.succ m) =
                chainOKB st repo ci.parentCommit m by
                  simp [chainOKB, hg]]
            exact hm.1
          · intro hc
            rw [show chainOKB st repo (some c) (Nat.succ m) =
                chainOKB st repo ci.parentCommit m by
                  simp [chainOKB, hg]] at hc
            obtain ⟨cc, hcc⟩ := hm.2 hc
            exact ⟨cc, by rw [show walkParents st repo orig (some c) (Nat.succ m) =
                walkParents st repo orig ci.parentCommit m by
                  simp [walkParents, hg]]; exact hcc⟩
  · intro st c h
    simp only [inspectCommit]
    rw [if_neg (by omega)]

/-- Witness for C3 at concrete inputs. -/
theorem inspectCommit_ancestry_resolution_witness :
    parseCommitID "master^2" = ancestrySpec "master^2" ∧
    chainOKB branchedState "r" (some ⟨"r", uuidB⟩) 0 = true ∧
    (∃ cc, walkParents branchedState "r" ⟨"r", "x"⟩ (some ⟨"r", uuidB⟩) 1 =
      .error (.commitNotFound cc)) ∧
    inspectCommit branchedState ⟨"r", "master"⟩ =
      walkParents branchedState "r" ⟨"r", "master"⟩ (some ⟨"r", uuidB⟩) 0 :=
  ⟨inspectCommit_ancestry_resolution.1 "master^2",
   (inspectCommit_ancestry_resolution.2.1 branchedState "r" ⟨"r", "x"⟩
      (some ⟨"r", uuidB⟩) 0).1.mp (by decide),
   (inspectCommit_ancestry_resolution.2.1 branchedState "r" ⟨"r", "x"⟩
      (some ⟨"r", uuidB⟩) 1).2 (by decide),
   inspectCommit_ancestry_resolution.2.2 branchedState ⟨"r", "master"⟩
      (by decide)⟩

theorem exceptMap_ok {α β : Type} {x : Except PfsError α} {g : α → β}
    {b : β} (h : x.map g = .ok b) : ∃ a, x = .ok a ∧ g a = b := by
  cases x with
  | error e => simp [Except.map] at h
  | ok a =>
    refine ⟨a, rfl, ?_⟩
    simpa [Except.map] using h

/-- A successful `listWalk` run is the claim's chain: with the walk budget as
the limit, and — when it did not exhaust the budget — with no limit at all. -/
theorem listWalk_isChain (st : PfsState) (repo : String)
    (fromID : Option String) :
    ∀ (n : Nat) (oc : Option Commit) (l : List CommitInfo),
      listWalk st repo fromID oc n = .ok l →
      isChainB st repo fromID (some n) oc l = true ∧
      (l.length < n → isChainB st repo fromID none oc l = true) := by
  intro n
  induction n with
  | zero =>
    intro oc l h
    have hl : l = [] := by
      cases oc <;> cases h <;> rfl
    subst hl
    exact ⟨by simp [isChainB], by omega⟩
  | succ m ih =>
    intro oc l h
    cases oc with
    | none =>
      cases h
      exact ⟨by simp [isChainB], fun _ => by simp [isChainB]⟩
    | some c =>
      rw [listWalk] at h
      by_cases hf : fromID = some c.id
      · rw [if_pos hf] at h
        cases h
        exact ⟨by simp [isChainB, hf], fun _ => by simp [isChainB, hf]⟩
      · rw [if_neg hf] at h
        cases hg : commitsGet st repo c.id with
        | none => rw [hg] at h; cases h
        | some ci =>
          rw [hg] at h
          obtain ⟨l2, hl2, hmap⟩ := exceptMap_ok h
          cases hmap
          obtain ⟨h1, h2⟩ := ih ci.parentCommit l2 hl2
          constructor
          · simp only [isChainB, hf, hg]
            simp [h1]
          · intro hlen
            have h3 := h2 (by simpa using Nat.lt_of_succ_lt_succ hlen)
            simp only [isChainB, hf, hg]
            simp [h3]

/-- C9: `listCommit` errors whenever `from` is given without `to`; and when
`to` is given, a successful call returns the chain `to, to's parent, ...`,
stopping (exclusively) at `from` or after `number` entries (`number = 0`
meaning no limit, up to the `MaxUint64` cap of the implementation, which the
length hypothesis keeps unobservable). -/
theorem listCommit_from_to_chain (st : PfsState) (repo : String) :
    (∀ f (n : Nat) (l : List CommitInfo),
      listCommit st repo none (some f) n ≠ .ok l) ∧
    (∀ t (fromC : Option Commit) (n : Nat) (l : List CommitInfo),
      listCommit st repo (some t) fromC n = .ok l →
      ∃ tci, inspectCommit st t = .ok tci ∧
        ∃ fR : Option String,
          ((fromC = none ∧ fR = none) ∨
           (∃ f fci, fromC = some f ∧ inspectCommit st f = .ok fci ∧
             fR = some fci.commit.id)) ∧
          (n ≠ 0 →
            isChainB st repo fR (some n) (some ⟨repo, tci.commit.id⟩) l = true) ∧
          (n = 0 → l.length < 2 ^ 64 - 1 →
            isChainB st repo fR none (some ⟨repo, tci.commit.id⟩) l = true)) := by
  constructor
  · intro f n l hc
    unfold listCommit at hc
    split at hc
    · cases hc
    · split at hc
      · cases hc
      · obtain ⟨fromR, hfrom, hc⟩ := exceptBind_ok hc
        obtain ⟨fci, hfci, hfr⟩ := exceptMap_ok hfrom
        subst hfr
        obtain ⟨toR, hto, hc⟩ := exceptBind_ok hc
        cases hto
        cases hc
  · intro t fromC n l hc
    unfold listCommit at hc
    split at hc
    · cases hc
    · rename_i hcond
      split at hc
      · cases hc
      · obtain ⟨fromR, hfrom, hc⟩ := exceptBind_ok hc
        obtain ⟨toR, hto, hc⟩ := exceptBind_ok hc
        obtain ⟨tci, htci, htr⟩ := exceptMap_ok hto
        subst htr
        have hrepo : t.repo = repo := by
          by_contra hne
          exact hcond (by simp [Option.any, hne])
        refine ⟨tci, htci, ?_⟩
        cases fromC with
        | none =>
          cases hfrom
          refine ⟨none, Or.inl ⟨rfl, rfl⟩, ?_⟩
          rw [show (⟨repo, tci.commit.id⟩ : Commit) =
            ⟨t.repo, tci.commit.id⟩ by rw [hrepo]]
          by_cases hn : n = 0
          · subst hn
            refine ⟨fun hk => absurd rfl hk, fun _ hlen => ?_⟩
            simp only [if_pos rfl] at hc
            exact (listWalk_isChain st repo none _ _ l hc).2 hlen
          · refine ⟨fun _ => ?_, fun hk => absurd hk hn⟩
            rw [if_neg hn] at hc
            exact (listWalk_isChain st repo none _ _ l hc).1
        | some f =>
          obtain ⟨fci, hfci, hfr⟩ := exceptMap_ok hfrom
          subst hfr
          refine ⟨some fci.commit.id, Or.inr ⟨f, fci, rfl, hfci, rfl⟩, ?_⟩
          rw [show (⟨repo, tci.commit.id⟩ : Commit) =
            ⟨t.repo, tci.commit.id⟩ by rw [hrepo]]
          by_cases hn : n = 0
          · subst hn
            refine ⟨fun hk => absurd rfl hk, fun _ hlen => ?_⟩
            simp only [if_pos rfl] at hc
            exact (listWalk_isChain st repo _ _ _ l hc).2 hlen
          · refine ⟨fun _ => ?_, fun hk => absurd hk hn⟩
            rw [if_neg hn] at hc
            exact (listWalk_isChain st repo _ _ _ l hc).1

/-- Witness for C9 at concrete inputs: `from` without `to` errors, and
listing from the head of the two-commit chain returns it as the chain. -/
theorem listCommit_from_to_chain_witness :
    (listCommit branchedState "r" none (some ⟨"r", uuidB⟩) 0 ≠
      .ok ([] : List CommitInfo)) ∧
    (∃ tci, inspectCommit branchedState ⟨"r", uuidB⟩ = .ok tci ∧
      ∃ fR : Option String,
        ((none = (none : Option Commit) ∧ fR = none) ∨
         (∃ f fci, (none : Option Commit) = some f ∧
           inspectCommit branchedState f = .ok fci ∧
           fR = some fci.commit.id)) ∧
        (2 ≠ 0 →
          isChainB branchedState "r" fR (some 2)
            (some ⟨"r", tci.commit.id⟩) [⟨⟨"r", uuidB⟩, none, 0, some 0, [], none, 0⟩] = true) ∧
        (2 = 0 → ([⟨⟨"r", uuidB⟩, none, 0, some 0, [], none, 0⟩] :
            List CommitInfo).length < 2 ^ 64 - 1 →
          isChainB branchedState "r" fR none
            (some ⟨"r", tci.commit.id⟩) [⟨⟨"r", uuidB⟩, none, 0, some 0, [], none, 0⟩] = true)) :=
  ⟨(listCommit_from_to_chain branchedState "r").1 ⟨"r", uuidB⟩ 0 [],
   (listCommit_from_to_chain branchedState "r").2 ⟨"r", uuidB⟩ none 2
      [⟨⟨"r", uuidB⟩, none, 0, some 0, [], none, 0⟩] (by decide)⟩

/-- C8: under the blob-store split invariant — k returned objects, total
size S with `S = (k-1)·ChunkSize + r` and `0 ≤ r ≤ ChunkSize` — the records
built by the delimiter-`NONE` path of `putFile` assign `ChunkSize` to each of
the first k−1 records and `S − (k−1)·ChunkSize` to the last; and a successful
`putFile` stages exactly these records as one scratch record batch. -/
theorem putFile_none_chunk_sizes (chunk : Int) (ow : Option Int) :
    (∀ (objs : List String) (S r : Int) (i : Nat),
      0 ≤ chunk → objs ≠ [] →
      S = ((objs.length : Int) - 1) * chunk + r → 0 ≤ r → r ≤ chunk →
      (putFileNoneRecords chunk ow objs S i).map PutFileRecord.sizeBytes =
        List.replicate (objs.length - 1) chunk ++ [r]) ∧
    (∀ st (c : Commit) fp (objs : List String) (S : Int) tu u st2,
      putFile st c fp ow objs S tu u = .ok st2 →
      ow ≠ some 0 →
      ∃ cid, st2.scratch = st.scratch ++
        [⟨c.repo, cid, fp, u,
          .recs ⟨false, putFileNoneRecords chunkSize ow objs S 0⟩⟩]) := by
  constructor
  · intro objs
    induction objs with
    | nil => intro S r i _ hk; exact absurd rfl hk
    | cons o rest ih =>
      intro S r i hC _ hS hr0 hrC
      cases rest with
      | nil =>
        have hSr : S = r := by
          simp at hS
          linarith
        have hle : ¬(S > chunk) := by omega
        simp only [putFileNoneRecords, if_neg hle, List.map_cons, List.map_nil]
        rw [hSr]
        rfl
      | cons o2 rest2 =>
        have hlen1 : (1 : Int) ≤ ((o2 :: rest2).length : Int) := by
          have : 1 ≤ (o2 :: rest2).length := by simp
          exact_mod_cast this
        have hfact : (((o2 :: rest2).length : Int)) * chunk =
            (((o2 :: rest2).length : Int) - 1) * chunk + chunk := by ring
        have hnn : 0 ≤ (((o2 :: rest2).length : Int) - 1) * chunk :=
          mul_nonneg (by linarith) hC
        have hS2 : S = ((o2 :: rest2).length : Int) * chunk + r := by
          rw [hS]
          have : ((o :: o2 :: rest2).length : Int) - 1 =
              ((o2 :: rest2).length : Int) := by
            simp
          rw [this]
        have hge : chunk ≤ S := by
          rw [hS2, hfact]
          linarith
        have hsz : (if S > chunk then chunk else S) = chunk := by
          by_cases hgt : S > chunk
          · rw [if_pos hgt]
          · rw [if_neg hgt]
            omega
        have hrec := ih (S - chunk) r (i + 1) hC (by simp)
          (by rw [hS2, hfact]; ring) hr0 hrC
        show (if S > chunk then chunk else S) ::
            (putFileNoneRecords chunk ow (o2 :: rest2) (S - chunk) (i + 1)).map
              PutFileRecord.sizeBytes =
          List.replicate ((o :: o2 :: rest2).length - 1) chunk ++ [r]
        rw [hsz, hrec]
        rfl
  · intro st c fp objs S tu u st2 h how
    unfold putFile at h
    obtain ⟨commit, hres, h⟩ := exceptBind_ok h
    have hrepo : commit.repo = c.repo := by
      by_cases hc : (c.id.length ≠ 32 ∨ c.id.toList.getD 12 ' ' ≠ '4')
      · rw [if_pos hc] at hres
        obtain ⟨ci, _, hmap⟩ := exceptMap_ok hres
        rw [← hmap]
      · rw [if_neg hc] at hres
        cases hres
        rfl
    rw [if_neg how] at h
    obtain ⟨st1, hst1, h⟩ := exceptBind_ok h
    cases hst1
    split at h
    · cases h
    · split at h
      · cases h
        exact ⟨commit.id, by rw [← hrepo]⟩
      · cases h

/-- Witness for C8 at a concrete input: three 4-byte chunks of a 10-byte
upload get sizes 4, 4, 2, and a `putFile` on the open commit stages them. -/
theorem putFile_none_chunk_sizes_witness :
    ((putFileNoneRecords 4 none ["h1", "h2", "h3"] 10 0).map
        PutFileRecord.sizeBytes = List.replicate 2 4 ++ [2]) ∧
    (∃ cid, putResState.scratch = openCommitState.scratch ++
      [⟨"r", cid, "f", "u1",
        .recs ⟨false, putFileNoneRecords chunkSize none ["h1"] 3 0⟩⟩]) :=
  ⟨(putFile_none_chunk_sizes 4 none).1 ["h1", "h2", "h3"] 10 2 0
      (by decide) (by decide) (by decide) (by decide) (by decide),
   (putFile_none_chunk_sizes chunkSize none).2 openCommitState ⟨"r", uuidA⟩
      "f" ["h1"] 3 "tu" "u1" putResState (by decide) (by decide)⟩

theorem mem_insSorted (x : String) (l : List String) (a : String) :
    a ∈ insSorted x l ↔ a = x ∨ a ∈ l := by
  induction l with
  | nil => simp [insSorted]
  | cons y ys ih =>
    by_cases hxy : x = y
    · subst hxy
      simp only [insSorted, if_pos rfl]
      constructor
      · intro h
        exact Or.inr h
      · intro h
        rcases h with h | h
        · rw [h]; exact List.mem_cons_self _ _
        · exact h
    · rw [show insSorted x (y :: ys) =
        if x = y then y :: ys else
          if x < y then x :: y :: ys else y :: insSorted x ys from rfl]
      rw [if_neg hxy]
      by_cases hlt : x < y
      · rw [if_pos hlt]
        simp [or_comm, or_assoc, or_left_comm]
      · rw [if_neg hlt]
        simp only [List.mem_cons, ih]
        constructor
        · intro h
          rcases h with h | h | h
          · exact Or.inr (Or.inl h)
          · exact Or.inl h
          · exact Or.inr (Or.inr h)
        · intro h
          rcases h with h | h | h
          · exact Or.inr (Or.inl h)
          · exact Or.inl h
          · exact Or.inr (Or.inr h)

theorem pairwise_insSorted (x : String) (l : List String)
    (h : l.Pairwise (· < ·)) : (insSorted x l).Pairwise (· < ·) := by
  induction l with
  | nil => simp [insSorted]
  | cons y ys ih =>
    rcases List.pairwise_cons.mp h with ⟨hy, hys⟩
    by_cases hxy : x = y
    · subst hxy
      rw [show insSorted x (x :: ys) = x :: ys from by simp [insSorted]]
      exact h
    · rw [show insSorted x (y :: ys) =
        if x = y then y :: ys else
          if x < y then x :: y :: ys else y :: insSorted x ys from rfl]
      rw [if_neg hxy]
      by_cases hlt : x < y
      · rw [if_pos hlt]
        refine List.pairwise_cons.mpr ⟨?_, h⟩
        intro b hb
        rcases List.mem_cons.mp hb with hb | hb
        · rw [hb]; exact hlt
        · exact lt_trans hlt (hy b hb)
      · rw [if_neg hlt]
        refine List.pairwise_cons.mpr ⟨?_, ih hys⟩
        intro b hb
        rcases (mem_insSorted x ys b).mp hb with hb | hb
        · rw [hb]
          rcases lt_trichotomy x y with hc | hc | hc
          · exact absurd hc hlt
          · exact absurd hc.symm (fun he => hxy he.symm)
          · exact hc
        · exact hy b hb

theorem sortDedup_pairwise (l : List String) :
    (sortDedup l).Pairwise (· < ·) := by
  induction l with
  | nil => exact List.Pairwise.nil
  | cons x xs ih => exact pairwise_insSorted x (sortDedup xs) ih

theorem pairwise_last_max (l : List String) (h : l.Pairwise (· < ·)) :
    ∀ m, l.getLast? = some m → ∀ a ∈ l, a ≤ m := by
  induction l with
  | nil => intro m hm; cases hm
  | cons y ys ih =>
    rcases List.pairwise_cons.mp h with ⟨hy, hys⟩
    intro m hm a ha
    cases hc : ys with
    | nil =>
      subst hc
      simp at hm ha
      exact le_of_eq (ha.trans hm)
    | cons z zs =>
      have hm2 : ys.getLast? = some m := by
        rw [hc] at hm ⊢
        simpa [List.getLast?_cons_cons] using hm
      have hmem : m ∈ ys := by
        obtain ⟨hne, heq⟩ := List.mem_getLast?_eq_getLast (l := ys) (x := m) hm2
        rw [heq]
        exact List.getLast_mem hne
      rcases List.mem_cons.mp ha with ha | ha
      · rw [ha]
        exact le_of_lt (hy m hmem)
      · exact ih hys m hm2 a ha

/-- A successful `treePutFile` stores the objects at the path (appending to
an existing node). -/
theorem treePutFile_ok_mem (t : HashTree) (p : String) (objs : List String)
    (sz : Int) (t2 : HashTree) (h : treePutFile t p objs sz = .ok t2) :
    ∃ fn, alGet t2 p = some fn ∧ ∀ o ∈ objs, o ∈ fn.objects := by
  unfold treePutFile at h
  split at h
  · cases h
  · cases hg : alGet t p with
    | some fn =>
      rw [hg] at h
      cases h
      refine ⟨_, alGet_alPut_self _ _ _, ?_⟩
      intro o ho
      exact List.mem_append.mpr (Or.inr ho)
    | none =>
      rw [hg] at h
      cases h
      exact ⟨_, alGet_append_fresh _ _ _ hg, fun o ho => ho⟩

/-- `treePutFile` never removes an object already present at any path. -/
theorem treePutFile_ok_mono (t : HashTree) (q : String) (objs : List String)
    (sz : Int) (t2 : HashTree) (h : treePutFile t q objs sz = .ok t2)
    (p : String) (fn : FileNode) (hm : alGet t p = some fn) (o : String)
    (ho : o ∈ fn.objects) : ∃ fn2, alGet t2 p = some fn2 ∧ o ∈ fn2.objects := by
  unfold treePutFile at h
  split at h
  · cases h
  · cases hg : alGet t q with
    | some fnq =>
      rw [hg] at h
      cases h
      by_cases hpq : p = q
      · subst hpq
        rw [hm] at hg
        cases hg
        exact ⟨_, alGet_alPut_self _ _ _,
          List.mem_append.mpr (Or.inl ho)⟩
      · exact ⟨fn, by rw [alGet_alPut_ne _ _ hpq]; exact hm, ho⟩
    | none =>
      rw [hg] at h
      cases h
      refine ⟨fn, ?_, ho⟩
      rw [alGet_append, hm]

/-- `putSplitFiles` never removes an object already present. -/
theorem putSplitFiles_mono (filePath : String) (off : Int) :
    ∀ (rs : List PutFileRecord) (i0 : Nat) (t t2 : HashTree),
      putSplitFiles filePath off t i0 rs = .ok t2 →
      ∀ p fn o, alGet t p = some fn → o ∈ fn.objects →
        ∃ fn2, alGet t2 p = some fn2 ∧ o ∈ fn2.objects := by
  intro rs
  induction rs with
  | nil =>
    intro i0 t t2 h p fn o hm ho
    cases h
    exact ⟨fn, hm, ho⟩
  | cons r rest ih =>
    intro i0 t t2 h p fn o hm ho
    obtain ⟨t1, ht1, h⟩ := exceptBind_ok h
    obtain ⟨fn1, hm1, ho1⟩ := treePutFile_ok_mono _ _ _ _ _ ht1 p fn hm o ho
    exact ih (i0 + 1) t1 t2 h p fn1 o hm1 ho1

/-- C7: the split branch of `applyWrites`.  The child that is parsed is the
lexicographically highest existing child of the path (the sorted child list's
last element); with no children the index offset is 0, with children it is
one plus that child parsed as a zero-padded base-16 integer (a parse failure
is an error); and the i-th incoming record is written, in record order, as a
file named the `%016x` rendering of `i + indexOffset` under the path, whose
node then carries the record's object hash. -/
theorem applySplit_highest_child_naming (tree : HashTree) (filePath : String)
    (records : List PutFileRecord) :
    (∀ m, (childNamesAt tree filePath).getLast? = some m →
      ∀ c ∈ childNamesAt tree filePath, c ≤ m) ∧
    (childNamesAt tree filePath = [] →
      applySplitRecords tree filePath records =
        putSplitFiles filePath 0 tree 0 records) ∧
    (∀ m, (childNamesAt tree filePath).getLast? = some m →
      (goParseHex m = none →
        applySplitRecords tree filePath records =
          .error (.msg "error parsing filename as int")) ∧
      (∀ v, goParseHex m = some v →
        applySplitRecords tree filePath records =
          putSplitFiles filePath (v + 1) tree 0 records)) ∧
    (∀ (off : Int) (i0 : Nat) (t t2 : HashTree),
      putSplitFiles filePath off t i0 records = .ok t2 →
      ∀ (j : Nat) r, records[j]? = some r →
        ∃ fn, alGet t2 (joinPath filePath (hex016 ((i0 + j : Nat) + off))) =
            some fn ∧ r.objectHash ∈ fn.objects) := by
  refine ⟨?_, ?_, ?_, ?_⟩
  · intro m hm c hc
    exact pairwise_last_max _ (sortDedup_pairwise _) m hm c hc
  · intro hnil
    unfold applySplitRecords
    rw [hnil]
    rfl
  · intro m hm
    constructor
    · intro hparse
      unfold applySplitRecords
      simp only [hm]
      rw [hparse]
      rfl
    · intro v hparse
      unfold applySplitRecords
      simp only [hm]
      rw [hparse]
      rfl
  · intro off i0 t t2 h j r hj
    induction records generalizing i0 t j with
    | nil => cases hj
    | cons r0 rest ih =>
      obtain ⟨t1, ht1, h⟩ := exceptBind_ok h
      cases j with
      | zero =>
        have hr : r0 = r := by simpa using hj
        subst hr
        obtain ⟨fn1, hm1, ho1⟩ := treePutFile_ok_mem _ _ _ _ _ ht1
        obtain ⟨fn2, hm2, ho2⟩ := putSplitFiles_mono filePath off rest (i0 + 1)
          t1 t2 h _ fn1 r0.objectHash hm1 (ho1 _ (List.mem_singleton_self _))
        exact ⟨fn2, by simpa using hm2, ho2⟩
      | succ j2 =>
        have hj2 : rest[j2]? = some r := by simpa using hj
        obtain ⟨fn2, hm2, ho2⟩ := ih (i0 + 1) t1 h j2 hj2
        refine ⟨fn2, ?_, ho2⟩
        rw [show i0 + 1 + j2 = i0 + (j2 + 1) by omega] at hm2
        exact hm2

/-- Witness for C7 at concrete inputs: one existing child
`0000000000000001` of `logs`, one incoming record landing at
`logs/0000000000000002`. -/
theorem applySplit_highest_child_naming_witness :
    (∀ c ∈ childNamesAt splitTree "logs", c ≤ "0000000000000001") ∧
    applySplitRecords splitTree "logs" [⟨5, "h9", none⟩] =
      putSplitFiles "logs" (1 + 1) splitTree 0 [⟨5, "h9", none⟩] ∧
    (∃ fn, alGet splitResTree (joinPath "logs" (hex016 ((0 + 0 : Nat) + 2))) =
        some fn ∧ "h9" ∈ fn.objects) :=
  ⟨(applySplit_highest_child_naming splitTree "logs" [⟨5, "h9", none⟩]).1
      "0000000000000001" (by decide),
   ((applySplit_highest_child_naming splitTree "logs" [⟨5, "h9", none⟩]).2.2.1
      "0000000000000001" (by decide)).2 1 (by decide),
   (applySplit_highest_child_naming splitTree "logs" [⟨5, "h9", none⟩]).2.2.2
      2 0 splitTree splitResTree (by decide) 0 ⟨5, "h9", none⟩ (by decide)⟩

/-- C1 counterexample: `updateRepo` does not re-establish the provenance
closure — it stores the direct provenance list as given (driver.go line 381).
After `createRepo a []; createRepo b [a]; createRepo c []; updateRepo c [b]`
the repo `c` depends on `b` and `b` depends on `a`, yet `a ∉ c.Provenance`. -/
theorem updateRepo_breaks_provenance_closure :
    (provChainRes.map fun s =>
        match alGet s.repos "c", alGet s.repos "b" with
        | some ci, some bi =>
          bi.provenance.contains "a" && ci.provenance.contains "b" &&
            !(ci.provenance.contains "a")
        | _, _ => false) = .ok true := by decide

/-- C1 (amended): `createRepo` (with `update = false`) does maintain the
invariant the claim states — in any store whose repo records are dangling-free
(`provWFB`) and transitively closed (`provClosedB`, i.e. whenever `S` is in a
repo's provenance and `T` is in `S`'s provenance, `T` is already in that
repo's provenance), a successful create preserves both invariants: the new
repo's stored `Provenance` is the transitive closure of its direct
provenance.  The companion counterexample theorem shows `updateRepo` breaks
this closure. -/
theorem createRepo_preserves_provenance_closure (st : PfsState)
    (repo : String) (prov : List String) (desc : String) (st2 : PfsState)
    (hwf : provWFB st = true) (hcl : provClosedB st = true)
    (h : createRepo st repo prov desc false = .ok st2) :
    provWFB st2 = true ∧ provClosedB st2 = true := by
  simp only [createRepo] at h
  by_cases hv : (!validRepoName repo) = true
  · rw [if_pos hv] at h
    exact Except.noConfusion h
  · rw [if_neg hv, if_neg Bool.false_ne_true] at h
    cases hrep : alGet st.repos repo with
    | some ri0 =>
      rw [hrep] at h
      exact Except.noConfusion h
    | none =>
      rw [hrep] at h
      have h' : ((fullProvOf st prov).bind fun fullProv =>
          (rcIncrementAll st.repoRefCounts fullProv).bind fun rc1 =>
          (rcCreate rc1 repo 0).bind fun rc2 =>
          Except.ok { st with
            repos := st.repos ++ [(repo, ⟨repo, st.clock, fullProv, desc, 0⟩)],
            repoRefCounts := rc2 }) = Except.ok st2 := h
      obtain ⟨fp, hfp, h'⟩ := exceptBind_ok h'
      obtain ⟨rc1, hrc1, h'⟩ := exceptBind_ok h'
      obtain ⟨rc2, hrc2, h'⟩ := exceptBind_ok h'
      have hst2 : { st with
          repos := st.repos ++ [(repo, ⟨repo, st.clock, fp, desc, 0⟩)],
          repoRefCounts := rc2 } = st2 := Except.ok.inj h'
      subst hst2
      obtain ⟨_, hP2, hP3⟩ := fullProv_fold_spec st prov [] fp hfp
      simp only [provWFB, List.all_eq_true] at hwf
      simp only [provClosedB, List.all_eq_true] at hcl
      have hfpLook : ∀ s ∈ fp, ∃ v, alGet st.repos s = some v := by
        intro s hs
        rcases hP3 s hs with hsacc | ⟨p, pi, _, hgp, hcase⟩
        · exact absurd hsacc (List.not_mem_nil s)
        · rcases hcase with rfl | hspi
          · exact ⟨pi, hgp⟩
          · exact Option.isSome_iff_exists.mp (hwf (p, pi) (alGet_mem hgp) s hspi)
      have hfpClosed : ∀ s ∈ fp, ∀ si, alGet st.repos s = some si →
          ∀ t ∈ si.provenance, t ∈ fp := by
        intro s hs si hsi t ht
        rcases hP3 s hs with hsacc | ⟨p, pi, hp, hgp, hcase⟩
        · exact absurd hsacc (List.not_mem_nil s)
        · rcases hcase with rfl | hspi
          · obtain ⟨pi2, hgp2, _, hclose⟩ := hP2 s hp
            have hpi2 : pi2 = si := Option.some.inj (hgp2.symm.trans hsi)
            subst hpi2
            exact hclose t ht
          · have hcl2 := hcl (p, pi) (alGet_mem hgp) s hspi
            simp only [hsi] at hcl2
            have ht2 : t ∈ pi.provenance :=
              contains_iff_mem.mp ((List.all_eq_true.mp hcl2) t ht)
            obtain ⟨pi2, hgp2, _, hclose⟩ := hP2 p hp
            have hpi2 : pi2 = pi := Option.some.inj (hgp2.symm.trans hgp)
            subst hpi2
            exact hclose t ht2
      constructor
      · simp only [provWFB, List.all_eq_true]
        intro e he s hs
        rcases List.mem_append.mp he with heL | heR
        · obtain ⟨v, hvv⟩ := Option.isSome_iff_exists.mp (hwf e heL s hs)
          rw [alGet_append_left _ hvv]
          rfl
        · have he2 : e = (repo, (⟨repo, st.clock, fp, desc, 0⟩ : RepoInfo)) := by
            simpa using heR
          subst he2
          obtain ⟨v, hvv⟩ := hfpLook s hs
          rw [alGet_append_left _ hvv]
          rfl
      · simp only [provClosedB, List.all_eq_true]
        intro e he s hs
        rcases List.mem_append.mp he with heL | heR
        · obtain ⟨si, hsi⟩ := Option.isSome_iff_exists.mp (hwf e heL s hs)
          rw [alGet_append_left _ hsi]
          have hcl2 := hcl e heL s hs
          simp only [hsi] at hcl2
          exact hcl2
        · have he2 : e = (repo, (⟨repo, st.clock, fp, desc, 0⟩ : RepoInfo)) := by
            simpa using heR
          subst he2
          obtain ⟨si, hsi⟩ := hfpLook s hs
          rw [alGet_append_left _ hsi]
          simp only [List.all_eq_true]
          intro t ht
          exact contains_iff_mem.mpr (hfpClosed s hs si hsi t ht)

/-- Witness for the C1 amended theorem: creating `c` with direct provenance
`[b]` in the two-repo store (`b` depends on `a`) keeps both invariants — in
particular `c` is stored with the closed provenance `[b, a]`. -/
theorem createRepo_preserves_provenance_closure_witness :
    provWFB provW2State = true ∧ provClosedB provW2State = true :=
  createRepo_preserves_provenance_closure twoRepoState "c" ["b"] "" provW2State
    (by decide) (by decide) (by decide)

end Pfs
